import Mathlib

/-!
Verification development for the emby-actor-processor repository.

Shallow embedding of the actor-identity reconciliation and cast-enrichment
pipeline: the identity map upsert (`actor_utils.ActorDBManager.upsert_person`),
the per-field translator (`actor_utils.translate_actor_field`), the quality
scorer (`actor_utils.evaluate_cast_processing_quality`), the cast formatter
(`actor_utils.format_and_complete_cast_list`), the cast processor
(`core_processor_sa.MediaProcessorSA._process_cast_list_from_local`), the
identity enricher batch commit (`actor_utils.enrich_all_actor_aliases_task`),
the processed/failed log writes, and the override file writer.

Modeling conventions: Python strings are Lean `String`s; `None` is `Option`;
SQLite tables are Lean lists of rows in rowid order; timestamps are `Nat`;
real arithmetic is modeled by `ℚ`; Unicode case predicates are modeled on
ASCII (all concrete inputs in this file are ASCII or CJK, where Python and
this model agree).
-/

namespace EmbyActor

/-! ### Python string primitives -/

/-- Characters Python's `str.strip()` removes (the whitespace actually
occurring in this code base: ASCII whitespace, NBSP and the full-width
space U+3000). -/
def pyIsSpace (c : Char) : Bool :=
  c = ' ' || c = '\t' || c = '\n' || c = '\r' ||
  c = (Char.ofNat 11) || c = (Char.ofNat 12) ||
  c = (Char.ofNat 0xa0) || c = (Char.ofNat 0x3000)

/-- Model of Python `str.strip()`. -/
def pyStrip (s : String) : String :=
  ⟨(s.data.dropWhile pyIsSpace).reverse.dropWhile pyIsSpace |>.reverse⟩

/-- Model of Python `str.lower()` (ASCII case folding; CJK unchanged). -/
def pyLower (s : String) : String :=
  ⟨s.data.map Char.toLower⟩

/-- Model of Python `str.isupper()` on the ASCII fragment: at least one
cased character and no lowercase cased character. -/
def pyIsUpper (s : String) : Bool :=
  s.data.any (fun c => c.isUpper || c.isLower) && s.data.all (fun c => !c.isLower)

/-- Truthiness of an optional string, as Python sees it: `None` and the
empty string are falsy. -/
def optTruthy (o : Option String) : Bool :=
  match o with
  | none => false
  | some s => s ≠ ""

/-- Embedding of `utils.contains_chinese`: true iff some character lies in
one of the three CJK ranges checked by the source. -/
def contains_chinese (s : String) : Bool :=
  s.data.any (fun c =>
    (0x4e00 ≤ c.toNat && c.toNat ≤ 0x9fff) ||
    (0x3400 ≤ c.toNat && c.toNat ≤ 0x4dbf) ||
    (0xf900 ≤ c.toNat && c.toNat ≤ 0xfaff))

/-! ### Identity map (`person_identity_map`) -/

/-- The four external-ID columns of `person_identity_map`. -/
inductive IdField
  | emby
  | tmdb
  | imdb
  | douban
deriving DecidableEq, Repr, Fintype

/-- Column iteration order of `id_fields` in `upsert_person`. -/
def id_fields : List IdField := [.emby, .tmdb, .imdb, .douban]

/-- One row of `person_identity_map`. -/
structure PersonRow where
  map_id : Nat
  primary_name : String
  emby_person_id : Option String := none
  tmdb_person_id : Option String := none
  imdb_id : Option String := none
  douban_celebrity_id : Option String := none
  last_synced_at : Option Nat := none
  last_updated_at : Option Nat := none
deriving DecidableEq, Repr, Inhabited

/-- Read one external-ID column of a row. -/
def PersonRow.getId (r : PersonRow) : IdField → Option String
  | .emby => r.emby_person_id
  | .tmdb => r.tmdb_person_id
  | .imdb => r.imdb_id
  | .douban => r.douban_celebrity_id

/-- Write one external-ID column of a row. -/
def PersonRow.setId (r : PersonRow) (f : IdField) (v : Option String) : PersonRow :=
  match f with
  | .emby => { r with emby_person_id := v }
  | .tmdb => { r with tmdb_person_id := v }
  | .imdb => { r with imdb_id := v }
  | .douban => { r with douban_celebrity_id := v }

/-- The table: rows in rowid order, plus the next rowid to be assigned. -/
structure PersonTable where
  rows : List PersonRow
  nextId : Nat
deriving DecidableEq, Repr

/-- The raw `person_data` dict passed to `upsert_person`. -/
structure PersonData where
  name : Option String := none
  emby_id : Option String := none
  tmdb_id : Option String := none
  imdb_id : Option String := none
  douban_id : Option String := none
deriving DecidableEq, Repr

/-- Normalized `data_to_process` built at the top of `upsert_person`. -/
structure NormData where
  primary_name : String
  emby_person_id : Option String
  tmdb_person_id : Option String
  imdb_id : Option String
  douban_celebrity_id : Option String
deriving DecidableEq, Repr

/-- Read one external-ID entry of the normalized candidate. -/
def NormData.getId (d : NormData) : IdField → Option String
  | .emby => d.emby_person_id
  | .tmdb => d.tmdb_person_id
  | .imdb => d.imdb_id
  | .douban => d.douban_celebrity_id

/-- Embedding of `str(x or '').strip() or None`. -/
def normIdValue (o : Option String) : Option String :=
  let t := pyStrip (o.getD "")
  if t = "" then none else some t

/-- Step 1 of `upsert_person`: normalize and clean the input data. -/
def normalizeData (d : PersonData) : NormData :=
  { primary_name := pyStrip (d.name.getD "")
    emby_person_id := normIdValue d.emby_id
    tmdb_person_id := normIdValue d.tmdb_id
    imdb_id := normIdValue d.imdb_id
    douban_celebrity_id := normIdValue d.douban_id }

/-- The `provided_ids` dict: the non-null external IDs of the candidate, in
column order. -/
def providedIds (nd : NormData) : List (IdField × String) :=
  id_fields.filterMap (fun f => (nd.getId f).map (fun v => (f, v)))

/-- Whether a row matches the `OR` query over the provided IDs. -/
def rowMatchesProvided (provided : List (IdField × String)) (r : PersonRow) : Bool :=
  provided.any (fun fv => r.getId fv.1 == some fv.2)

/-- Helper for `dedupeByMapId`: `seen` is the set of map_ids already kept. -/
def dedupeByMapIdAux (seen : List Nat) : List PersonRow → List PersonRow
  | [] => []
  | r :: rs =>
    if seen.contains r.map_id then dedupeByMapIdAux seen rs
    else r :: dedupeByMapIdAux (r.map_id :: seen) rs

/-- Deduplication by `map_id`, keeping the first occurrence (the
`unique_map_ids` loop in the source). -/
def dedupeByMapId (l : List PersonRow) : List PersonRow :=
  dedupeByMapIdAux [] l

/-- The ID-based matches of the candidate against the table, in rowid
order, deduplicated. -/
def idBasedMatches (t : PersonTable) (nd : NormData) : List PersonRow :=
  dedupeByMapId (t.rows.filter (rowMatchesProvided (providedIds nd)))

/-- One pass of the merge loop over a single source: fill each null
external-ID field of the survivor from the source, then overwrite the
primary name when the candidate carries one. -/
def mergeOneSource (candName : String) (p : PersonRow) (src : IdField → Option String) :
    PersonRow :=
  let p := id_fields.foldl
    (fun p f => if optTruthy (src f) && !(optTruthy (p.getId f)) then p.setId f (src f) else p) p
  if candName ≠ "" then { p with primary_name := candName } else p

/-- The merge of all sources (candidate first, then the other matched rows
in `map_id` order) into the survivor. -/
def mergeAllSources (nd : NormData) (p : PersonRow) (others : List PersonRow) : PersonRow :=
  ((fun f => nd.getId f) :: others.map (fun r f => r.getId f)).foldl
    (mergeOneSource nd.primary_name) p

/-- Whether a row carries any external ID (`has_any_id` in the source). -/
def hasAnyId (r : PersonRow) : Bool :=
  id_fields.any (fun f => optTruthy (r.getId f))

/-- The first same-name row that is fuseable: skipped when both the
candidate and the row carry at least one external ID. -/
def potentialMergeTarget (t : PersonTable) (nd : NormData) : Option PersonRow :=
  (t.rows.filter (fun r => r.primary_name == nd.primary_name)).find?
    (fun r => !(!(providedIds nd).isEmpty && hasAnyId r))

/-- Embedding of `ActorDBManager.upsert_person`. Returns the map_id (or -1)
and the resulting table; `now` stands for `CURRENT_TIMESTAMP`. -/
def upsert_person (now : Nat) (t : PersonTable) (d : PersonData) : Int × PersonTable :=
  let nd := normalizeData d
  let provided := providedIds nd
  if nd.primary_name = "" ∧ provided = [] then (-1, t)
  else
    let hits := idBasedMatches t nd
    if hits ≠ [] then
      -- branch A: ID-based merge
      let sorted := hits.mergeSort (fun a b => a.map_id ≤ b.map_id)
      let primary := sorted.headI
      let others := sorted.tail
      let merged := mergeAllSources nd primary others
      let updated := { merged with last_updated_at := some now }
      let rows' := (t.rows.map (fun r => if r.map_id = primary.map_id then updated else r)).filter
        (fun r => !(others.map PersonRow.map_id).contains r.map_id)
      (Int.ofNat primary.map_id, { t with rows := rows' })
    else if nd.primary_name = "" then (-1, t)
    else
      match potentialMergeTarget t nd with
      | some target =>
        -- branch B: name-based soft merge
        if provided = [] then (Int.ofNat target.map_id, t)
        else
          let target' := { provided.foldl (fun r fv => r.setId fv.1 (some fv.2)) target with
                             last_updated_at := some now }
          let rows' := t.rows.map (fun r => if r.map_id = target.map_id then target' else r)
          (Int.ofNat target.map_id, { t with rows := rows' })
      | none =>
        -- branch C: insert a brand-new row
        let newRow : PersonRow :=
          { map_id := t.nextId
            primary_name := nd.primary_name
            emby_person_id := nd.emby_person_id
            tmdb_person_id := nd.tmdb_person_id
            imdb_id := nd.imdb_id
            douban_celebrity_id := nd.douban_celebrity_id
            last_synced_at := some now
            last_updated_at := some now }
        (Int.ofNat t.nextId, { rows := t.rows ++ [newRow], nextId := t.nextId + 1 })

/-! ### Translation cache and per-field translator -/

/-- One row of the `translation_cache` table. Modelled from the spec:
the cache accessors `DoubanApi._get_translation_from_db` and
`DoubanApi._save_translation_to_db` live in `douban.py`, which is not part
of the sources; per spec §3, `original_text` is the unique key,
`translated_text` is nullable (null encodes known-to-fail), together with
the engine used. -/
structure TransEntry where
  translated_text : Option String
  engine_used : String
deriving DecidableEq, Repr

/-- The `translation_cache` table as an association list keyed by
`original_text`. -/
abbrev TransCache := List (String × TransEntry)

/-- Modelled from the spec: cache lookup by `original_text`
(`DoubanApi._get_translation_from_db`). -/
def cacheGet (c : TransCache) (text : String) : Option TransEntry :=
  (c.find? (fun kv => kv.1 == text)).map Prod.snd

/-- Modelled from the spec: cache upsert keyed by `original_text`
(`DoubanApi._save_translation_to_db`, REPLACE semantics). -/
def cacheSave (c : TransCache) (text : String) (tr : Option String) (engine : String) :
    TransCache :=
  (text, ⟨tr, engine⟩) :: c.filter (fun kv => kv.1 ≠ text)

/-- An external translation engine: given an engine name and a query,
returns the translated text, or `none` for an exception. -/
abbrev EngineOracle := String → String → Option String

/-- Loop body of `utils.translate_text_with_translators`: try the engines
in order; the first whose result is truthy and differs case-insensitively
from the query wins. Also counts how many engine invocations were made. -/
def ttwtLoop (oracle : EngineOracle) (query_text : String) :
    List String → Option (String × String) × Nat
  | [] => (none, 0)
  | e :: rest =>
    match oracle e query_text with
    | none =>
      let r := ttwtLoop oracle query_text rest
      (r.1, r.2 + 1)
    | some tr =>
      if tr ≠ "" ∧ pyLower (pyStrip tr) ≠ pyLower (pyStrip query_text) then
        (some (pyStrip tr, e), 1)
      else
        let r := ttwtLoop oracle query_text rest
        (r.1, r.2 + 1)

/-- Embedding of `utils.translate_text_with_translators`: `libAvail` models
`TRANSLATORS_LIB_AVAILABLE`; the default engine order is
bing, google, baidu. Returns the winning (text, engine) pair, if any, and
the number of engine invocations. -/
def translate_text_with_translators (libAvail : Bool) (oracle : EngineOracle)
    (query_text : String) (engine_order : Option (List String)) :
    Option (String × String) × Nat :=
  if query_text = "" ∨ pyStrip query_text = "" ∨ ¬libAvail then (none, 0)
  else ttwtLoop oracle query_text (engine_order.getD ["bing", "google", "baidu"])

/-- Outcome of one `translate_actor_field` call: the returned text, the
updated translation cache, and how many engine invocations (AI or
fallback) took place. -/
structure TranslateResult where
  result : Option String
  cache : TransCache
  engineCalls : Nat
deriving DecidableEq, Repr

/-- Step 4 of `translate_actor_field`: the online translation, AI first
when enabled, falling back to the traditional engines. Returns the chosen
translation (if any), the engine label, and the invocation count. -/
def translateOnline (aiPresent : Bool) (aiProvider : String)
    (aiTranslate : String → Option String) (translator_engines : List String)
    (ai_enabled : Bool) (libAvail : Bool) (oracle : EngineOracle)
    (text_stripped : String) : Option String × String × Nat :=
  let ai : Option String × Nat :=
    if aiPresent && ai_enabled then
      match aiTranslate text_stripped with
      | some r => (if r ≠ "" then some r else none, 1)
      | none => (none, 1)
    else (none, 0)
  match ai.1 with
  | some r => (some r, aiProvider, ai.2)
  | none =>
    let fb := translate_text_with_translators libAvail oracle text_stripped
      (some translator_engines)
    match fb.1 with
    | some te =>
      (if te.1 ≠ "" then some te.1 else none,
       if te.1 ≠ "" then te.2 else "unknown", ai.2 + fb.2)
    | none => (none, "unknown", ai.2 + fb.2)

/-- Embedding of `actor_utils.translate_actor_field`. The AI translator is
modelled by its presence flag, provider name and an oracle returning
`none` on failure or exception; the fallback engines by `EngineOracle`. -/
def translate_actor_field (cache : TransCache) (aiPresent : Bool) (aiProvider : String)
    (aiTranslate : String → Option String) (translator_engines : List String)
    (ai_enabled : Bool) (libAvail : Bool) (oracle : EngineOracle)
    (text : Option String) : TranslateResult :=
  match text with
  | none => ⟨none, cache, 0⟩
  | some s =>
    -- 1. empty / whitespace-only / already-CJK text is returned unchanged
    if s = "" ∨ pyStrip s = "" ∨ contains_chinese s then ⟨some s, cache, 0⟩
    else
      let text_stripped := pyStrip s
      -- 2. short all-caps initials are returned unchanged
      if text_stripped.length ≤ 2 ∧ pyIsUpper text_stripped then ⟨some s, cache, 0⟩
      else
        -- 3. database cache, both positive and negative entries
        match cacheGet cache text_stripped with
        | some entry =>
          if optTruthy entry.translated_text then ⟨entry.translated_text, cache, 0⟩
          else ⟨some s, cache, 0⟩
        | none =>
          -- 4. online translation
          let online := translateOnline aiPresent aiProvider aiTranslate
            translator_engines ai_enabled libAvail oracle text_stripped
          -- 5. store the outcome and return
          match online.1 with
          | some ft =>
            if pyStrip ft ≠ "" ∧ pyLower (pyStrip ft) ≠ pyLower text_stripped then
              ⟨some ft, cacheSave cache text_stripped (some ft) online.2.1, online.2.2⟩
            else
              ⟨some s,
               cacheSave cache text_stripped none ("failed_or_same_via_" ++ online.2.1),
               online.2.2⟩
          | none =>
            ⟨some s,
             cacheSave cache text_stripped none ("failed_or_same_via_" ++ online.2.1),
             online.2.2⟩

/-! ### Quality scoring (`evaluate_cast_processing_quality`) -/

/-- A cast entry as seen by the quality scorer: the effective name
(`name or Name`) and role (`character or Role`), with `""` for missing. -/
structure CastEntry where
  name : String
  role : String
deriving DecidableEq, Repr

/-- Round-half-to-even on rationals, the model of Python's `round`. -/
def roundHalfEven (q : ℚ) : ℤ :=
  let f := ⌊q⌋
  if q - f < 1/2 then f else if (1:ℚ)/2 < q - f then f + 1 else if Even f then f else f + 1

/-- Model of Python `round(x, 1)`. -/
def round1 (q : ℚ) : ℚ := (roundHalfEven (q * 10) : ℚ) / 10

/-- Score of a single actor inside `evaluate_cast_processing_quality`:
name worth 0/1/5 (empty/other/CJK), role worth 0/0.5/2.5/5
(empty/other/CJK placeholder/meaningful CJK), capped at 10. -/
def actorScore (a : CastEntry) : ℚ :=
  let nameScore : ℚ :=
    if a.name ≠ "" ∧ contains_chinese a.name then 5
    else if a.name ≠ "" then 1 else 0
  let isPlaceholder := a.role.endsWith "(配音)" || a.role = "演员" || a.role = "配音"
  let roleScore : ℚ :=
    if a.role ≠ "" ∧ contains_chinese a.role ∧ ¬isPlaceholder then 5
    else if a.role ≠ "" ∧ contains_chinese a.role ∧ isPlaceholder then 5/2
    else if a.role ≠ "" then 1/2 else 0
  min 10 (nameScore + roleScore)

/-- Embedding of `actor_utils.evaluate_cast_processing_quality` with reals
modelled by rationals (the float literal 0.8 is modelled by 4/5). -/
def evaluate_cast_processing_quality (final_cast : List CastEntry)
    (original_cast_count : Nat) (expected_final_count : Option Nat)
    (is_animation : Bool) : ℚ :=
  if final_cast = [] then (if is_animation then 7 else 0)
  else
    let total := final_cast.length
    let accumulated := final_cast.foldl (fun acc a => acc + actorScore a) 0
    let avg := accumulated / total
    let avg :=
      if is_animation then avg
      else if total < 10 then avg * (total / 10)
      else
        match expected_final_count with
        | some expected =>
          if (total : ℚ) < expected * (4/5) then avg * ((total : ℚ) / expected) else avg
        | none =>
          if (total : ℚ) < original_cast_count * (4/5) then
            avg * ((total : ℚ) / original_cast_count)
          else avg
    round1 avg

/-! ### Character-name cleaning (`utils.clean_character_name_static`) -/

/-- Effect of `re.sub` with the non-greedy patterns for parenthesized and
bracketed segments, structurally recursive on a step counter: every
recursive call consumes at least one character, so a counter starting at
the input's length never reaches the (identity) base case. -/
def removeBrkAux : Nat → List Char → List Char
  | 0, l => l
  | _ + 1, [] => []
  | fuel + 1, c :: rest =>
    if c = '(' ∧ rest.contains ')' then removeBrkAux fuel ((rest.dropWhile (· ≠ ')')).tail)
    else if c = '[' ∧ rest.contains ']' then removeBrkAux fuel ((rest.dropWhile (· ≠ ']')).tail)
    else c :: removeBrkAux fuel rest

/-- At each `(` (resp. `[`), everything up to the nearest `)` (resp. `]`)
is removed; an opener with no closer is kept. -/
def removeBrk (l : List Char) : List Char := removeBrkAux l.length l

/-- Effect of removing the match of case-insensitive `as` followed by at
least one whitespace character at the front. -/
def stripAsFront (l : List Char) : List Char :=
  match l with
  | a :: s :: c :: rest =>
    if (a.toLower = 'a' ∧ s.toLower = 's' ∧ pyIsSpace c) then
      (c :: rest).dropWhile pyIsSpace
    else l
  | _ => l

/-- Effect of removing a leading role word among 饰演, 饰, 配音, 配 (in that
alternation order) together with any following whitespace. -/
def stripRoleWordFront (l : List Char) : List Char :=
  if l.take 2 = ['饰', '演'] then (l.drop 2).dropWhile pyIsSpace
  else if l.take 1 = ['饰'] then (l.drop 1).dropWhile pyIsSpace
  else if l.take 2 = ['配', '音'] then (l.drop 2).dropWhile pyIsSpace
  else if l.take 1 = ['配'] then (l.drop 1).dropWhile pyIsSpace
  else l

/-- Effect of removing a trailing role word among 饰演, 配音, 饰, 配 together
with any whitespace right before it. -/
def stripRoleWordBack (l : List Char) : List Char :=
  let r := l.reverse
  let r' :=
    if r.take 2 = ['演', '饰'] then (r.drop 2).dropWhile pyIsSpace
    else if r.take 2 = ['音', '配'] then (r.drop 2).dropWhile pyIsSpace
    else if r.take 1 = ['饰'] then (r.drop 1).dropWhile pyIsSpace
    else if r.take 1 = ['配'] then (r.drop 1).dropWhile pyIsSpace
    else r
  r'.reverse

/-- Character class of the first group of the mixed CJK/Latin pattern:
the basic CJK block U+4E00..U+9FA5 or the middle dot. -/
def isCjkBasicOrDot (c : Char) : Bool :=
  (0x4e00 ≤ c.toNat && c.toNat ≤ 0x9fa5) || c = '·'

/-- Embedding of `utils.clean_character_name_static`: drop bracketed
segments, leading `as`, leading and trailing role words, and keep only the
CJK part of a mixed CJK-plus-Latin role. -/
def clean_character_name_static (character_name : Option String) : String :=
  match character_name with
  | none => ""
  | some s0 =>
    if s0 = "" then ""
    else
      let name := pyStrip s0
      let name := pyStrip ⟨removeBrk name.data⟩
      let name := pyStrip ⟨stripAsFront name.data⟩
      let name := pyStrip ⟨stripRoleWordFront name.data⟩
      let name := pyStrip ⟨stripRoleWordBack name.data⟩
      let p := name.data.takeWhile isCjkBasicOrDot
      if p ≠ [] ∧ (name.data.drop p.length).any Char.isAlpha then pyStrip ⟨p⟩
      else pyStrip name

/-! ### Role selection (`actor_utils.select_best_role`) -/

/-- Embedding of `actor_utils.select_best_role`: prefer a meaningful CJK
candidate, protect a meaningful CJK current value, then prefer meaningful
values and finally placeholders, candidate first. -/
def select_best_role (current_role candidate_role : String) : String :=
  let phs : List String := ["actor", "actress", "演员", "配音"]
  let cur := pyStrip current_role
  let cand := pyStrip candidate_role
  let curCh := contains_chinese cur
  let candCh := contains_chinese cand
  let curPh := phs.contains (pyLower cur)
  let candPh := phs.contains (pyLower cand)
  if candCh ∧ ¬candPh then cand
  else if curCh ∧ ¬curPh ∧ ¬candCh then cur
  else if cand ≠ "" ∧ ¬candPh then cand
  else if cur ≠ "" ∧ ¬curPh then cur
  else if cand ≠ "" then cand
  else if cur ≠ "" then cur
  else ""

/-! ### Cast formatting (`actor_utils.format_and_complete_cast_list`) -/

/-- An in-memory cast record as handled by the formatter and the cast
processor: display fields plus external IDs; constant presentational
fields (`adult`, `gender`, `popularity`, ...) are never read by the
modeled logic and are omitted. -/
structure SAActor where
  id : Option String := none
  name : String := ""
  original_name : String := ""
  character : String := ""
  imdb_id : Option String := none
  douban_id : Option String := none
  order : Option Int := none
deriving DecidableEq, Repr, Inhabited

/-- The zero-width space used by the Emby same-name collision workaround. -/
def zwsp : Char := Char.ofNat 0x200b

/-- A name with every zero-width space removed. -/
def cleanZwsp (s : String) : String := ⟨s.data.filter (fun c => c ≠ zwsp)⟩

/-- Anti-collision renaming: each actor with a truthy name gets its cleaned
name plus one zero-width space per earlier actor with the same cleaned
name. This positional formulation is equivalent to the source's grouping
map, whose groups list actors in list order. -/
def antiCollideAux (prevCleans : List String) : List SAActor → List SAActor
  | [] => []
  | a :: rest =>
    if a.name = "" then a :: antiCollideAux prevCleans rest
    else
      let c := cleanZwsp a.name
      let k := prevCleans.count c
      { a with name := c ++ ⟨List.replicate k zwsp⟩ } ::
        antiCollideAux (prevCleans ++ [c]) rest

/-- The generic role names (`generic_roles` in the source). -/
def generic_roles : List String := ["演员", "配音"]

/-- The cleaned role inside the formatting loop: strip, then remove all
spaces (including the full-width space) when the role contains CJK. -/
def roleCore (character : String) : String :=
  let fr := pyStrip character
  if contains_chinese fr then ⟨fr.data.filter (fun c => c ≠ ' ' ∧ c ≠ '　')⟩ else fr

/-- Role formatting of one record inside `format_and_complete_cast_list`:
strip, remove spaces inside CJK roles, substitute the generic role for an
empty one, and optionally prepend 配 / 饰. -/
def formatRole (addPrefixFlag is_animation : Bool) (character : String) : String :=
  let fr := roleCore character
  if addPrefixFlag then
    if fr ≠ "" ∧ ¬(generic_roles.contains fr) then
      (if is_animation then "配 " else "饰 ") ++ fr
    else if fr = "" then (if is_animation then "配音" else "演员")
    else fr
  else
    if fr = "" then (if is_animation then "配音" else "演员") else fr

/-- Sort key order of the final pass: generic roles last, stable by the
`order` assigned in the formatting loop. -/
def finalSortLe (a b : SAActor) : Bool :=
  let ga : Nat := if generic_roles.contains a.character then 1 else 0
  let gb : Nat := if generic_roles.contains b.character then 1 else 0
  ga < gb || (ga = gb && a.order.getD 999 ≤ b.order.getD 999)

/-- Embedding of `actor_utils.format_and_complete_cast_list`; the
role-prefix configuration option is the `addPrefixFlag` argument. -/
def format_and_complete_cast_list (cast_list : List SAActor) (is_animation : Bool)
    (addPrefixFlag : Bool) : List SAActor :=
  let sorted := cast_list.mergeSort (fun a b => a.order.getD 999 ≤ b.order.getD 999)
  let renamed := antiCollideAux [] sorted
  let perfect := renamed.enum.map (fun ia =>
    { ia.2 with character := formatRole addPrefixFlag is_animation ia.2.character,
                order := some (ia.1 : Int) })
  let sorted2 := perfect.mergeSort finalSortLe
  sorted2.enum.map (fun ia => { ia.2 with order := some (ia.1 : Int) })

/-- Embedding of the genre test at `core_processor_sa.py:724`:
`is_animation = "Animation" in genres or "动画" in genres`. -/
def isAnimationSA (genres : List String) : Bool :=
  genres.contains "Animation" || genres.contains "动画"

/-! ### Douban candidates (`actor_utils.format_douban_cast`) -/

/-- A raw Douban cast item as returned by the API or the local cache
(values already passed through `str`). -/
structure DoubanRaw where
  name : String := ""
  id : String := ""
  original_name : String := ""
  character : String := ""
deriving DecidableEq, Repr

/-- A formatted Douban candidate. The keys produced by the source are
`Name`, `OriginalName`, `Role`, `DoubanCelebrityId` and `ProviderIds`
(the latter a derived copy of the Douban id, never read downstream). -/
structure DoubanCand where
  Name : String
  OriginalName : String
  Role : String
  DoubanCelebrityId : Option String
deriving DecidableEq, Repr

/-- Recursion of `format_douban_cast` carrying the two seen-sets. -/
def format_douban_cast_aux (seen_ids seen_names : List String) :
    List DoubanRaw → List DoubanCand
  | [] => []
  | item :: rest =>
    let name_zh := pyStrip item.name
    if name_zh = "" then format_douban_cast_aux seen_ids seen_names rest
    else
      let douban_id := normIdValue (some item.id)
      if douban_id.isSome ∧ seen_ids.contains (douban_id.getD "") then
        format_douban_cast_aux seen_ids seen_names rest
      else if seen_names.contains name_zh then
        format_douban_cast_aux seen_ids seen_names rest
      else
        { Name := name_zh
          OriginalName := pyStrip item.original_name
          Role := pyStrip item.character
          DoubanCelebrityId := douban_id } ::
        format_douban_cast_aux
          (match douban_id with | some d => seen_ids ++ [d] | none => seen_ids)
          (seen_names ++ [name_zh]) rest

/-- Embedding of `actor_utils.format_douban_cast`: skip empty names,
deduplicate by Douban id first, then by exact name. -/
def format_douban_cast (raw : List DoubanRaw) : List DoubanCand :=
  format_douban_cast_aux [] [] raw

/-! ### Cast processor (`MediaProcessorSA._process_cast_list_from_local`) -/

/-- The `final_cast_map` dict: association list preserving insertion
order. -/
abbrev CastMap := List (String × SAActor)

/-- Python-dict assignment on an association list: replace in place when
the key exists, append otherwise. -/
def mapAssign (m : CastMap) (k : String) (v : SAActor) : CastMap :=
  if m.any (fun kv => kv.1 == k) then m.map (fun kv => if kv.1 == k then (k, v) else kv)
  else m ++ [(k, v)]

/-- Construction of `final_cast_map`: actors with a truthy id keyed by id
(last one wins), then actors without an id keyed by
`"name_" ++ lowercased name`, first one wins. -/
def buildInitialMap (local_cast_list : List SAActor) : CastMap :=
  let m0 := local_cast_list.foldl
    (fun m a => if optTruthy a.id then mapAssign m (a.id.getD "") a else m) []
  local_cast_list.foldl
    (fun m a =>
      if optTruthy a.id then m
      else
        let k := "name_" ++ pyLower a.name
        if m.any (fun kv => kv.1 == k) then m else m ++ [(k, a)]) m0

/-- The phase-1 match test: case-folded equality of the Douban name or
original name against the local name or original name. -/
def doubanMatchesLocal (d : DoubanCand) (l : SAActor) : Bool :=
  let dcn := pyStrip (pyLower d.Name)
  let dco := pyStrip (pyLower d.OriginalName)
  let ln := pyStrip (pyLower l.name)
  let lon := pyStrip (pyLower l.original_name)
  (dcn ≠ "" ∧ (dcn = ln ∨ dcn = lon)) ∨ (dco ≠ "" ∧ (dco = ln ∨ dco = lon))

/-- Effect of a phase-1 match on the matched local actor. -/
def applyDoubanMatch (d : DoubanCand) (l : SAActor) : SAActor :=
  { l with
    name := d.Name
    character := select_best_role l.character (clean_character_name_static (some d.Role))
    douban_id := if optTruthy d.DoubanCelebrityId then d.DoubanCelebrityId else l.douban_id }

/-- Update the first map entry matching the candidate, if any. -/
def updateFirstMatch (d : DoubanCand) : CastMap → Option CastMap
  | [] => none
  | kv :: rest =>
    if doubanMatchesLocal d kv.2 then some ((kv.1, applyDoubanMatch d kv.2) :: rest)
    else (updateFirstMatch d rest).map (kv :: ·)

/-- Phase 1 of the processor: match every Douban candidate against the
local cast by name; unmatched candidates are collected in order. -/
def phase1 (cands : List DoubanCand) (m : CastMap) : CastMap × List DoubanCand :=
  cands.foldl
    (fun acc d =>
      match updateFirstMatch d acc.1 with
      | some m' => (m', acc.2)
      | none => (acc.1, acc.2 ++ [d])) (m, [])

/-- Embedding of `_find_person_in_map_by_douban_id`. -/
def findPersonByDoubanId (t : PersonTable) (douban_id : String) : Option PersonRow :=
  if douban_id = "" then none
  else t.rows.find? (fun r => r.douban_celebrity_id == some douban_id)

/-- Reads of lowercase keys (`douban_id`, `name`, `original_name`,
`character`) on a formatted Douban candidate. `format_douban_cast` emits
only the capitalized keys `Name` / `OriginalName` / `Role` /
`DoubanCelebrityId` / `ProviderIds`, so every such `dict.get` yields
`None`. -/
def doubanCandLowerKey (_d : DoubanCand) (_key : String) : Option String := none

/-- Phase 2 of the processor (`core_processor_sa.py:327-349`): look up the
candidate's `douban_id` key in the identity map and promote on a stored
TMDb mapping. Because the candidates carry `DoubanCelebrityId` rather
than `douban_id`, the key read always yields `None`, `match_found` stays
false, and every candidate falls through to `still_unmatched`. -/
def phase2 (t : PersonTable) (m : CastMap) (unmatched : List DoubanCand) :
    CastMap × List DoubanCand :=
  unmatched.foldl
    (fun acc d =>
      match doubanCandLowerKey d "douban_id" with
      | some dId =>
        -- dead branch: the key is never present
        (match findPersonByDoubanId t dId with
         | some entry =>
           if optTruthy entry.tmdb_person_id then
             if ¬(acc.1.any (fun kv => kv.1 == entry.tmdb_person_id.getD "")) then
               (acc.1 ++ [(entry.tmdb_person_id.getD "",
                 { id := entry.tmdb_person_id
                   name := (doubanCandLowerKey d "name").getD ""
                   original_name := (doubanCandLowerKey d "original_name").getD ""
                   character := (doubanCandLowerKey d "character").getD ""
                   imdb_id := entry.imdb_id
                   douban_id := some dId
                   order := some (-1) })], acc.2)
             else (acc.1, acc.2)
           else (acc.1, acc.2 ++ [d])
         | none => (acc.1, acc.2 ++ [d]))
      | none => (acc.1, acc.2 ++ [d])) (m, [])

/-- Normalization of the `max_actors` configuration value: missing or
unparsable values and values ≤ 0 fall back to 30. -/
def normLimit (cfgMax : Option Int) : Int :=
  match cfgMax with
  | none => 30
  | some v => if v ≤ 0 then 30 else v

/-- The full-mapping feedback before truncation: upsert every intermediate
actor's IDs into the identity map. -/
def feedUpserts (now : Nat) (t : PersonTable) (l : List SAActor) : PersonTable :=
  l.foldl
    (fun t a =>
      (upsert_person now t
        { name := some a.name
          tmdb_id := a.id
          imdb_id := a.imdb_id
          douban_id := a.douban_id }).2) t

/-- Sort key of the pre-translation truncation: the record's order when
present and non-negative, 999 otherwise. -/
def truncOrderKey (a : SAActor) : Int :=
  match a.order with
  | some o => if o ≥ 0 then o else 999
  | none => 999

/-- The truncation step: when the list exceeds the limit, sort ascending
by `truncOrderKey` and keep the first `limit` records. -/
def truncateCast (limit : Int) (l : List SAActor) : List SAActor :=
  if (l.length : Int) > limit then
    (l.mergeSort (fun a b => truncOrderKey a ≤ truncOrderKey b)).take limit.toNat
  else l

/-- Lookup in an in-memory translation dict. -/
def assocGet (m : List (String × String)) (k : String) : Option String :=
  (m.find? (fun kv => kv.1 == k)).map Prod.snd

/-- Python-dict assignment on an in-memory translation dict. -/
def assocAssign (m : List (String × String)) (k v : String) : List (String × String) :=
  if m.any (fun kv => kv.1 == k) then m.map (fun kv => if kv.1 == k then (k, v) else kv)
  else m ++ [(k, v)]

/-- Collection pass of the AI translation branch: returns the dict of
database cache hits and the deduplicated list of texts still needing
translation (`texts_to_translate`; the Python `set` iteration order is
determinized as insertion order). -/
def collectTexts (cache : TransCache) (cast : List SAActor) :
    List (String × String) × List String :=
  cast.foldl
    (fun acc a =>
      [a.name, clean_character_name_static (some a.character)].foldl
        (fun acc text =>
          if text = "" ∨ pyStrip text = "" ∨ contains_chinese text then acc
          else
            match cacheGet cache text with
            | some e =>
              if optTruthy e.translated_text then
                (assocAssign acc.1 text (e.translated_text.getD ""), acc.2)
              else acc
            | none =>
              (acc.1, if acc.2.contains text then acc.2 else acc.2 ++ [text])) acc)
    ([], [])

/-- The AI batch translation step: returns whether AI translation
succeeded, the combined in-memory dict, and the updated database cache.
`aiBatch` models `AITranslator.batch_translate` (`none` = exception). -/
def aiTranslationStep (aiProvider : String)
    (aiBatch : List String → Option (List (String × String)))
    (cache : TransCache) (cast : List SAActor) :
    Bool × List (String × String) × TransCache :=
  let col := collectTexts cache cast
  if col.2 ≠ [] then
    match aiBatch col.2 with
    | some m =>
      if m ≠ [] then
        let tc := m.foldl (fun tc kv => assocAssign tc kv.1 kv.2) col.1
        let cache' := m.foldl (fun c kv => cacheSave c kv.1 (some kv.2) aiProvider) cache
        (true, tc, cache')
      else (false, col.1, cache)
    | none => (false, col.1, cache)
  else (true, col.1, cache)

/-- Back-fill of the translation results into the cast: the name is
replaced on a dict hit; the character is replaced by its translation when
present and by its cleaned form otherwise. -/
def backfillTranslations (tc : List (String × String)) (cast : List SAActor) :
    List SAActor :=
  cast.map (fun a =>
    let a := match assocGet tc a.name with
      | some tr => { a with name := tr }
      | none => a
    let oc := clean_character_name_static (some a.character)
    match assocGet tc oc with
    | some tr => { a with character := tr }
    | none => { a with character := oc })

/-- The map assembled by phases 1 and 2 (with the phase-2 gate on the
current actor count against the limit). -/
def assembledMap (t : PersonTable) (cfgMax : Option Int)
    (local_cast_list : List SAActor) (douban_raw : List DoubanRaw) : CastMap :=
  let douban_candidates := format_douban_cast douban_raw
  let p1 := phase1 douban_candidates (buildInitialMap local_cast_list)
  if (p1.1.length : Int) ≥ normLimit cfgMax then p1.1
  else (phase2 t p1.1 p1.2).1

/-- The intermediate cast list (`final_cast_map.values()`). -/
def intermediateCast (t : PersonTable) (cfgMax : Option Int)
    (local_cast_list : List SAActor) (douban_raw : List DoubanRaw) : List SAActor :=
  (assembledMap t cfgMax local_cast_list douban_raw).map Prod.snd

/-- Result of one `_process_cast_list_from_local` call: the returned cast
(`none` models a raised exception), the identity map and the translation
cache. -/
structure ProcessCastResult where
  cast : Option (List SAActor)
  table : PersonTable
  cache : TransCache
deriving Repr

/-- Embedding of `MediaProcessorSA._process_cast_list_from_local`.
`aiEnabled` models `ai_translator and config["ai_translation_enabled"]`.
The non-AI fallback loop calls `actor_utils.translate_actor_field` with 4
arguments at `core_processor_sa.py:472` although that function takes 5
positional parameters, so its first iteration raises `TypeError`; the
fallback path therefore only returns normally on an empty cast. -/
def process_cast_list_from_local (now : Nat) (t : PersonTable) (cache : TransCache)
    (cfgMax : Option Int) (aiEnabled : Bool) (aiProvider : String)
    (aiBatch : List String → Option (List (String × String)))
    (local_cast_list : List SAActor) (douban_raw : List DoubanRaw) :
    ProcessCastResult :=
  let intermediate := intermediateCast t cfgMax local_cast_list douban_raw
  let t1 := feedUpserts now t intermediate
  let cast_to_process := truncateCast (normLimit cfgMax) intermediate
  if aiEnabled then
    let step := aiTranslationStep aiProvider aiBatch cache cast_to_process
    if step.1 then ⟨some (backfillTranslations step.2.1 cast_to_process), t1, step.2.2⟩
    else if cast_to_process = [] then ⟨some [], t1, step.2.2⟩
    else ⟨none, t1, step.2.2⟩
  else if cast_to_process = [] then ⟨some [], t1, cache⟩
  else ⟨none, t1, cache⟩

/-! ### Identity enricher, phase A batch commit
(`actor_utils.enrich_all_actor_aliases_task`) -/

/-- Classification of one TMDb person lookup
(`fetch_tmdb_details_for_actor`): found with the external IMDb id (when
any), not found (404 or empty details), or failed (other API error). -/
inductive FetchStatus
  | found (imdb : Option String)
  | notFound
  | failed
deriving DecidableEq, Repr

/-- Selection predicate of the phase-A query: TMDb id present, IMDb id
null, and last sync missing or older than the cooldown cutoff. -/
def phaseANeedy (cooldownCut : Nat) (r : PersonRow) : Bool :=
  r.tmdb_person_id.isSome && r.imdb_id == none &&
    (r.last_synced_at == none || r.last_synced_at.getD 0 < cooldownCut)

/-- The `updates_to_commit` list of one enricher batch: the (tmdb id,
IMDb id) pairs of the successful lookups that carried an IMDb id. -/
def enrichUpdates (results : List (String × FetchStatus)) : List (String × String) :=
  results.filterMap (fun r =>
    match r.2 with
    | .found o => if optTruthy o then some (r.1, o.getD "") else none
    | _ => none)

/-- The `deletions_to_commit` list of one enricher batch: the TMDb ids
whose lookup got a 404. -/
def enrichDeletions (results : List (String × FetchStatus)) : List String :=
  results.filterMap (fun r =>
    match r.2 with
    | .notFound => some r.1
    | _ => none)

/-- Embedding of the per-batch database commit of enricher phase A
(`actor_utils.py:769-793`): when the batch produced at least one update or
deletion, apply the IMDb upserts, delete the rows whose TMDb ids got a
404, and bump `last_synced_at` for every processed TMDb id; otherwise
nothing is written. `results` carries the per-row outcomes in completion
order. -/
def enrichBatchCommit (now : Nat) (t : PersonTable) (chunk : List PersonRow)
    (results : List (String × FetchStatus)) : PersonTable :=
  let updates : List (String × String) := enrichUpdates results
  let deletions : List String := enrichDeletions results
  if updates = [] ∧ deletions = [] then t
  else
    let t1 := updates.foldl
      (fun t ui => (upsert_person now t { tmdb_id := some ui.1, imdb_id := some ui.2 }).2) t
    let t2 := { t1 with
      rows := t1.rows.filter (fun r =>
        ¬ (r.tmdb_person_id.isSome ∧ deletions.contains (r.tmdb_person_id.getD ""))) }
    let processed := chunk.filterMap (fun r => r.tmdb_person_id)
    { t2 with
      rows := t2.rows.map (fun r =>
        if r.tmdb_person_id.isSome ∧ processed.contains (r.tmdb_person_id.getD "") then
          { r with last_synced_at := some now }
        else r) }

/-! ### Processed and failed logs -/

/-- One `processed_log` row (besides the key). -/
structure ProcessedEntry where
  item_name : String
  score : Option ℚ
deriving DecidableEq, Repr

/-- One `failed_log` row (besides the key). -/
structure FailedEntry where
  item_name : String
  error_message : String
  item_type : String
  score : Option ℚ
deriving DecidableEq, Repr

/-- The two log tables, keyed by item id. -/
structure LogState where
  processed : List (String × ProcessedEntry)
  failed : List (String × FailedEntry)
deriving DecidableEq, Repr

/-- REPLACE INTO semantics on an association list keyed by item id. -/
def replaceInto {α : Type} (m : List (String × α)) (k : String) (v : α) :
    List (String × α) :=
  (k, v) :: m.filter (fun kv => kv.1 ≠ k)

/-- Embedding of `save_to_processed_log`
(`core_processor_api.py:240-249`): REPLACE INTO `processed_log`. -/
def save_to_processed_log (st : LogState) (item_id item_name : String)
    (score : Option ℚ) : LogState :=
  { st with processed := replaceInto st.processed item_id ⟨item_name, score⟩ }

/-- Embedding of `save_to_failed_log` (`core_processor_api.py:286-305`):
REPLACE INTO `failed_log`; `processed_log` is not touched. -/
def save_to_failed_log (st : LogState) (item_id item_name error_msg item_type : String)
    (score : Option ℚ) : LogState :=
  { st with failed := replaceInto st.failed item_id ⟨item_name, error_msg, item_type, score⟩ }

/-- Embedding of `_remove_from_failed_log_if_exists`
(`core_processor_api.py:1036-1047`): DELETE FROM `failed_log` by id. -/
def remove_from_failed_log (st : LogState) (item_id : String) : LogState :=
  { st with failed := st.failed.filter (fun kv => kv.1 ≠ item_id) }

/-- The end-of-attempt log write (`core_processor_sa.py:816-824`, likewise
`core_processor_api.py:196-201`): below the review threshold the item is
recorded in the failed log, otherwise it is recorded in the processed log
and removed from the failed log. `low_score_msg` stands for the rendered
message text. -/
def recordAttemptOutcome (st : LogState) (item_id item_name item_type : String)
    (score min_score : ℚ) (low_score_msg : String) : LogState :=
  if score < min_score then
    save_to_failed_log st item_id item_name low_score_msg item_type (some score)
  else
    remove_from_failed_log
      (save_to_processed_log st item_id item_name (some score)) item_id

/-! ### Override file writer (`core_processor_sa.py:728-761`) -/

/-- Model of `str.startswith`, computable at the kernel level. -/
def strStarts (s p : String) : Bool := s.data.take p.data.length == p.data

/-- Model of `str.endswith`, computable at the kernel level. -/
def strEnds (s p : String) : Bool := s.data.drop (s.data.length - p.data.length) == p.data

/-- One file-system operation performed by the override writer. -/
inductive FileOp
  | write (path content : String)
  | rename (src dst : String)
deriving DecidableEq, Repr

/-- Path join with `/`. -/
def pjoin (a b : String) : String := a ++ "/" ++ b

/-- The operation trace of the override JSON writer. The root JSON (movie
`all.json` / series `series.json`) is written to a `<path>.<rand>.tmp`
file and renamed; when the item is a series and episode processing is on,
every readable `season-*.json` of the source cache is written to the
override directory directly. `seasonFiles` lists the cache directory
entries with their injected content (`none` = unreadable). -/
def overrideWritePlan (isMovie : Bool) (baseOverrideDir : String)
    (rootContent : String) (rand : Nat) (processEpisodes : Bool)
    (seasonFiles : List (String × Option String)) : List FileOp :=
  let base_json_filename := if isMovie then "all.json" else "series.json"
  let override_json_path := pjoin baseOverrideDir base_json_filename
  let temp_json_path := override_json_path ++ "." ++ toString rand ++ ".tmp"
  let rootOps : List FileOp :=
    [.write temp_json_path rootContent, .rename temp_json_path override_json_path]
  let childOps : List FileOp :=
    if ¬isMovie ∧ processEpisodes then
      seasonFiles.foldl
        (fun ops fc =>
          if strStarts fc.1 "season-" ∧ strEnds fc.1 ".json" then
            match fc.2 with
            | some c => ops ++ [.write (pjoin baseOverrideDir fc.1) c]
            | none => ops
          else ops) []
    else []
  rootOps ++ childOps

/-- The set of override JSON destination paths a plan produces. -/
def planDestinations (isMovie : Bool) (baseOverrideDir : String)
    (processEpisodes : Bool) (seasonFiles : List (String × Option String)) :
    List String :=
  pjoin baseOverrideDir (if isMovie then "all.json" else "series.json") ::
    (if ¬isMovie ∧ processEpisodes then
      seasonFiles.filterMap (fun fc =>
        if strStarts fc.1 "season-" ∧ strEnds fc.1 ".json" ∧ fc.2.isSome then
          some (pjoin baseOverrideDir fc.1)
        else none)
    else [])

/-- Atomicity of one destination inside an operation trace: the
destination is never the target of a direct write, and its content
arrives through a rename from a `<dest>.<rand>.tmp` path that was written
beforehand. -/
def atomicallyWritten (ops : List FileOp) (dest : String) : Prop :=
  (∀ c, FileOp.write dest c ∉ ops) ∧
  (∃ (r : Nat) (c : String), FileOp.write (dest ++ "." ++ toString r ++ ".tmp") c ∈ ops ∧
          FileOp.rename (dest ++ "." ++ toString r ++ ".tmp") dest ∈ ops)

/-! ### Well-formedness of the identity table and the uniqueness invariant -/

/-- Structural invariants of a SQLite table with `map_id` as INTEGER
PRIMARY KEY: distinct, smaller than the next rowid, and no external-ID
column holds the empty string (all writes go through normalization). -/
structure TableWF (t : PersonTable) : Prop where
  nodup : (t.rows.map PersonRow.map_id).Nodup
  lt_next : ∀ r ∈ t.rows, r.map_id < t.nextId
  clean : ∀ r ∈ t.rows, ∀ f, r.getId f ≠ some ""

/-- The identity-uniqueness invariant: each non-null external ID value
occurs in at most one row (spec §8.1). Rows are compared as values, which
under `TableWF.nodup` identifies them with physical rows. -/
def UniqueIds (t : PersonTable) : Prop :=
  ∀ (f : IdField) (v : String), v ≠ "" →
    ∀ r1 ∈ t.rows, ∀ r2 ∈ t.rows,
      r1.getId f = some v → r2.getId f = some v → r1 = r2

/-! ### Toolkit lemmas on the upsert embedding -/

theorem getId_setId_same (r : PersonRow) (f : IdField) (v : Option String) :
    (r.setId f v).getId f = v := by
  cases f <;> rfl

theorem getId_setId_ne (r : PersonRow) (f f' : IdField) (v : Option String)
    (h : f ≠ f') : (r.setId f v).getId f' = r.getId f' := by
  cases f <;> cases f' <;> first | rfl | exact absurd rfl h

theorem map_id_setId (r : PersonRow) (f : IdField) (v : Option String) :
    (r.setId f v).map_id = r.map_id := by
  cases f <;> rfl

theorem primary_name_setId (r : PersonRow) (f : IdField) (v : Option String) :
    (r.setId f v).primary_name = r.primary_name := by
  cases f <;> rfl

theorem normIdValue_ne_empty (o : Option String) : normIdValue o ≠ some "" := by
  unfold normIdValue
  simp only []
  split <;> simp_all

theorem providedIds_mem_iff (nd : NormData) (f : IdField) (v : String) :
    (f, v) ∈ providedIds nd ↔ nd.getId f = some v := by
  unfold providedIds id_fields
  cases f <;> simp [List.filterMap, NormData.getId] <;>
    cases nd.emby_person_id <;> cases nd.tmdb_person_id <;>
    cases nd.imdb_id <;> cases nd.douban_celebrity_id <;>
    simp [NormData.getId, eq_comm]

theorem providedIds_val_ne_empty (d : PersonData) (f : IdField) (v : String)
    (h : (f, v) ∈ providedIds (normalizeData d)) : v ≠ "" := by
  rw [providedIds_mem_iff] at h
  intro hv
  subst hv
  unfold normalizeData at h
  cases f <;> simp [NormData.getId] at h <;> exact normIdValue_ne_empty _ h

theorem rowMatchesProvided_of_getId (provided : List (IdField × String))
    (r : PersonRow) (f : IdField) (v : String) (hm : (f, v) ∈ provided)
    (hr : r.getId f = some v) : rowMatchesProvided provided r = true := by
  unfold rowMatchesProvided
  rw [List.any_eq_true]
  exact ⟨(f, v), hm, by simp [hr]⟩

theorem dedupeByMapIdAux_sublist (seen : List Nat) (l : List PersonRow) :
    (dedupeByMapIdAux seen l).Sublist l := by
  induction l generalizing seen with
  | nil => simp [dedupeByMapIdAux]
  | cons r rs ih =>
    unfold dedupeByMapIdAux
    split
    · exact (ih seen).trans (List.sublist_cons_self r rs)
    · exact (ih (r.map_id :: seen)).cons₂ r

theorem dedupeByMapId_sublist (l : List PersonRow) : (dedupeByMapId l).Sublist l :=
  dedupeByMapIdAux_sublist [] l

theorem dedupeByMapIdAux_eq_self (seen : List Nat) (l : List PersonRow)
    (hn : (l.map PersonRow.map_id).Nodup)
    (hd : ∀ r ∈ l, r.map_id ∉ seen) :
    dedupeByMapIdAux seen l = l := by
  induction l generalizing seen with
  | nil => rfl
  | cons r rs ih =>
    rw [List.map_cons, List.nodup_cons] at hn
    unfold dedupeByMapIdAux
    rw [if_neg (by simpa using hd r (List.mem_cons_self r rs))]
    congr 1
    refine ih (r.map_id :: seen) hn.2 ?_
    intro x hx
    simp only [List.mem_cons]
    push_neg
    constructor
    · intro hxr
      exact hn.1 (hxr ▸ List.mem_map_of_mem PersonRow.map_id hx)
    · exact hd x (List.mem_cons_of_mem r hx)

theorem dedupeByMapId_eq_self (l : List PersonRow)
    (hn : (l.map PersonRow.map_id).Nodup) : dedupeByMapId l = l :=
  dedupeByMapIdAux_eq_self [] l hn (by simp)

theorem idBasedMatches_sublist (t : PersonTable) (nd : NormData) :
    (idBasedMatches t nd).Sublist t.rows :=
  (dedupeByMapId_sublist _).trans (List.filter_sublist _)

theorem idBasedMatches_eq_filter (t : PersonTable) (nd : NormData)
    (hn : (t.rows.map PersonRow.map_id).Nodup) :
    idBasedMatches t nd = t.rows.filter (rowMatchesProvided (providedIds nd)) := by
  unfold idBasedMatches
  exact dedupeByMapId_eq_self _ ((List.filter_sublist _).map PersonRow.map_id |>.nodup hn)

theorem mem_idBasedMatches (t : PersonTable) (nd : NormData)
    (hn : (t.rows.map PersonRow.map_id).Nodup) (r : PersonRow) :
    r ∈ idBasedMatches t nd ↔
      r ∈ t.rows ∧ rowMatchesProvided (providedIds nd) r = true := by
  rw [idBasedMatches_eq_filter t nd hn, List.mem_filter]

section MergeLemmas

variable (nm : String) (src : IdField → Option String)

private def fillStep (p : PersonRow) (f : IdField) : PersonRow :=
  if optTruthy (src f) && !(optTruthy (p.getId f)) then p.setId f (src f) else p

theorem fillStep_getId (p : PersonRow) (f' f : IdField) :
    (fillStep src p f').getId f =
      if f = f' then
        (if optTruthy (src f) && !(optTruthy (p.getId f)) then src f else p.getId f)
      else p.getId f := by
  by_cases h : f = f'
  · subst h
    unfold fillStep
    split <;> simp [getId_setId_same]
  · unfold fillStep
    rw [if_neg h]
    split
    · exact getId_setId_ne p f' f _ (fun hh => h hh.symm)
    · rfl

theorem fillStep_map_id (p : PersonRow) (f : IdField) :
    (fillStep src p f).map_id = p.map_id := by
  unfold fillStep; split <;> simp [map_id_setId]

theorem fillStep_primary_name (p : PersonRow) (f : IdField) :
    (fillStep src p f).primary_name = p.primary_name := by
  unfold fillStep; split <;> simp [primary_name_setId]

theorem fillStep_last_synced (p : PersonRow) (f : IdField) :
    (fillStep src p f).last_synced_at = p.last_synced_at := by
  unfold fillStep; split
  · cases f <;> rfl
  · rfl

theorem fillStep_last_updated (p : PersonRow) (f : IdField) :
    (fillStep src p f).last_updated_at = p.last_updated_at := by
  unfold fillStep; split
  · cases f <;> rfl
  · rfl

theorem mergeOneSource_eq_fold (p : PersonRow) :
    mergeOneSource nm p src =
      (if nm ≠ "" then
        { id_fields.foldl (fillStep src) p with primary_name := nm }
      else id_fields.foldl (fillStep src) p) := by
  rfl

theorem getId_withName (r : PersonRow) (f : IdField) :
    ({ r with primary_name := nm } : PersonRow).getId f = r.getId f := by
  cases f <;> rfl

theorem mergeOneSource_getId (p : PersonRow) (f : IdField) :
    (mergeOneSource nm p src).getId f =
      if optTruthy (src f) && !(optTruthy (p.getId f)) then src f else p.getId f := by
  have expand : id_fields.foldl (fillStep src) p =
      fillStep src (fillStep src (fillStep src (fillStep src p .emby) .tmdb) .imdb) .douban :=
    rfl
  have main : (id_fields.foldl (fillStep src) p).getId f =
      if optTruthy (src f) && !(optTruthy (p.getId f)) then src f else p.getId f := by
    rw [expand]
    cases f <;> simp [fillStep_getId]
  rw [mergeOneSource_eq_fold]
  split
  · rw [getId_withName, main]
  · rw [main]

theorem mergeOneSource_map_id (p : PersonRow) :
    (mergeOneSource nm p src).map_id = p.map_id := by
  rw [mergeOneSource_eq_fold]
  have : ∀ (fs : List IdField) (q : PersonRow),
      (fs.foldl (fillStep src) q).map_id = q.map_id := by
    intro fs
    induction fs with
    | nil => intro q; rfl
    | cons a l ih => intro q; rw [List.foldl_cons, ih, fillStep_map_id]
  split <;> simp [this]

theorem mergeOneSource_last_synced (p : PersonRow) :
    (mergeOneSource nm p src).last_synced_at = p.last_synced_at := by
  rw [mergeOneSource_eq_fold]
  have : ∀ (fs : List IdField) (q : PersonRow),
      (fs.foldl (fillStep src) q).last_synced_at = q.last_synced_at := by
    intro fs
    induction fs with
    | nil => intro q; rfl
    | cons a l ih => intro q; rw [List.foldl_cons, ih, fillStep_last_synced]
  split <;> simp [this]

theorem mergeOneSource_last_updated (p : PersonRow) :
    (mergeOneSource nm p src).last_updated_at = p.last_updated_at := by
  rw [mergeOneSource_eq_fold]
  have : ∀ (fs : List IdField) (q : PersonRow),
      (fs.foldl (fillStep src) q).last_updated_at = q.last_updated_at := by
    intro fs
    induction fs with
    | nil => intro q; rfl
    | cons a l ih => intro q; rw [List.foldl_cons, ih, fillStep_last_updated]
  split <;> simp [this]

theorem mergeOneSource_primary_name (p : PersonRow) :
    (mergeOneSource nm p src).primary_name =
      if nm ≠ "" then nm else p.primary_name := by
  rw [mergeOneSource_eq_fold]
  have : ∀ (fs : List IdField) (q : PersonRow),
      (fs.foldl (fillStep src) q).primary_name = q.primary_name := by
    intro fs
    induction fs with
    | nil => intro q; rfl
    | cons a l ih => intro q; rw [List.foldl_cons, ih, fillStep_primary_name]
  split <;> simp [this]

end MergeLemmas

section MergeAllLemmas

/-- Keep direction of the merge: a non-null survivor field is never
overwritten. -/
theorem mergeFold_keep (nm : String) (srcs : List (IdField → Option String))
    (p : PersonRow) (f : IdField) (h : optTruthy (p.getId f)) :
    (srcs.foldl (mergeOneSource nm) p).getId f = p.getId f := by
  induction srcs generalizing p with
  | nil => rfl
  | cons s rest ih =>
    rw [List.foldl_cons]
    have hstep : (mergeOneSource nm p s).getId f = p.getId f := by
      rw [mergeOneSource_getId]
      simp [h]
    rw [ih _ (by rw [hstep]; exact h), hstep]

/-- Provenance of a merged field: it is the survivor's own value or comes
from one of the sources (with a truthy value). -/
theorem mergeFold_provenance (nm : String) (srcs : List (IdField → Option String))
    (p : PersonRow) (f : IdField) :
    (srcs.foldl (mergeOneSource nm) p).getId f = p.getId f ∨
      ∃ s ∈ srcs, (srcs.foldl (mergeOneSource nm) p).getId f = s f ∧
        optTruthy (s f) := by
  induction srcs generalizing p with
  | nil => exact Or.inl rfl
  | cons s rest ih =>
    rw [List.foldl_cons]
    rcases ih (mergeOneSource nm p s) with h | ⟨s', hs', hv, ht⟩
    · rw [h, mergeOneSource_getId]
      split
      · rename_i hc
        exact Or.inr ⟨s, List.mem_cons_self s rest, rfl, by
          simpa using (Bool.and_eq_true _ _ |>.mp hc).1⟩
      · exact Or.inl rfl
    · exact Or.inr ⟨s', List.mem_cons_of_mem s hs', hv, ht⟩

/-- Fill direction of the merge: a null survivor field ends up truthy
exactly when some source offers a truthy value. -/
theorem mergeFold_fill (nm : String) (srcs : List (IdField → Option String))
    (p : PersonRow) (f : IdField) (h : ¬ optTruthy (p.getId f)) :
    optTruthy ((srcs.foldl (mergeOneSource nm) p).getId f) ↔
      ∃ s ∈ srcs, optTruthy (s f) := by
  induction srcs generalizing p with
  | nil => simp [h]
  | cons s rest ih =>
    rw [List.foldl_cons]
    by_cases hs : optTruthy (s f)
    · have hstep : (mergeOneSource nm p s).getId f = s f := by
        rw [mergeOneSource_getId]; simp [h, hs]
      constructor
      · intro _; exact ⟨s, List.mem_cons_self s rest, hs⟩
      · intro _
        rw [mergeFold_keep nm rest _ f (by rw [hstep]; exact hs), hstep]
        exact hs
    · have hstep : (mergeOneSource nm p s).getId f = p.getId f := by
        rw [mergeOneSource_getId]; simp [hs]
      rw [ih _ (by rw [hstep]; exact h)]
      constructor
      · intro ⟨s', h1, h2⟩; exact ⟨s', List.mem_cons_of_mem s h1, h2⟩
      · intro ⟨s', h1, h2⟩
        rcases List.mem_cons.mp h1 with rfl | h1'
        · exact absurd h2 hs
        · exact ⟨s', h1', h2⟩

theorem mergeFold_map_id (nm : String) (srcs : List (IdField → Option String))
    (p : PersonRow) : (srcs.foldl (mergeOneSource nm) p).map_id = p.map_id := by
  induction srcs generalizing p with
  | nil => rfl
  | cons s rest ih => rw [List.foldl_cons, ih, mergeOneSource_map_id]

theorem mergeFold_last_synced (nm : String) (srcs : List (IdField → Option String))
    (p : PersonRow) :
    (srcs.foldl (mergeOneSource nm) p).last_synced_at = p.last_synced_at := by
  induction srcs generalizing p with
  | nil => rfl
  | cons s rest ih => rw [List.foldl_cons, ih, mergeOneSource_last_synced]

theorem mergeFold_primary_name (nm : String) (srcs : List (IdField → Option String))
    (p : PersonRow) (hne : srcs ≠ []) :
    (srcs.foldl (mergeOneSource nm) p).primary_name =
      if nm ≠ "" then nm else p.primary_name := by
  induction srcs generalizing p with
  | nil => exact absurd rfl hne
  | cons s rest ih =>
    rw [List.foldl_cons]
    rcases eq_or_ne rest [] with rfl | hrest
    · exact mergeOneSource_primary_name nm s p
    · rw [ih _ hrest, mergeOneSource_primary_name]
      split <;> rfl

theorem mergeAllSources_map_id (nd : NormData) (p : PersonRow)
    (others : List PersonRow) : (mergeAllSources nd p others).map_id = p.map_id :=
  mergeFold_map_id _ _ _

theorem mergeAllSources_primary_name (nd : NormData) (p : PersonRow)
    (others : List PersonRow) :
    (mergeAllSources nd p others).primary_name =
      if nd.primary_name ≠ "" then nd.primary_name else p.primary_name :=
  mergeFold_primary_name _ _ _ (by simp [List.cons_ne_nil])

theorem mergeAllSources_keep (nd : NormData) (p : PersonRow)
    (others : List PersonRow) (f : IdField) (h : optTruthy (p.getId f)) :
    (mergeAllSources nd p others).getId f = p.getId f :=
  mergeFold_keep _ _ _ _ h

/-- Provenance for `mergeAllSources`: a merged field value is the
survivor's, the candidate's, or one of the other matched rows'. -/
theorem mergeAllSources_provenance (nd : NormData) (p : PersonRow)
    (others : List PersonRow) (f : IdField) :
    (mergeAllSources nd p others).getId f = p.getId f ∨
      ((mergeAllSources nd p others).getId f = nd.getId f ∧
        optTruthy (nd.getId f)) ∨
      ∃ o ∈ others, (mergeAllSources nd p others).getId f = o.getId f ∧
        optTruthy (o.getId f) := by
  rcases mergeFold_provenance nd.primary_name
      ((fun f => nd.getId f) :: others.map (fun r f => r.getId f)) p f with
    h | ⟨s, hs, hv, ht⟩
  · exact Or.inl h
  · rcases List.mem_cons.mp hs with rfl | hs'
    · exact Or.inr (Or.inl ⟨hv, ht⟩)
    · rcases List.mem_map.mp hs' with ⟨o, ho, rfl⟩
      exact Or.inr (Or.inr ⟨o, ho, hv, ht⟩)

theorem mergeAllSources_fill (nd : NormData) (p : PersonRow)
    (others : List PersonRow) (f : IdField) (h : ¬ optTruthy (p.getId f)) :
    optTruthy ((mergeAllSources nd p others).getId f) ↔
      optTruthy (nd.getId f) ∨ ∃ o ∈ others, optTruthy (o.getId f) := by
  rw [mergeAllSources, mergeFold_fill _ _ _ _ h]
  constructor
  · intro ⟨s, hs, ht⟩
    rcases List.mem_cons.mp hs with rfl | hs'
    · exact Or.inl ht
    · rcases List.mem_map.mp hs' with ⟨o, ho, rfl⟩
      exact Or.inr ⟨o, ho, ht⟩
  · intro h'
    rcases h' with ht | ⟨o, ho, ht⟩
    · exact ⟨_, List.mem_cons_self _ _, ht⟩
    · exact ⟨_, List.mem_cons_of_mem _ (List.mem_map_of_mem _ ho), ht⟩

end MergeAllLemmas

section BranchLemmas

theorem providedIds_ne_nil_of_matches (t : PersonTable) (nd : NormData)
    (h : idBasedMatches t nd ≠ []) : providedIds nd ≠ [] := by
  intro hp
  apply h
  unfold idBasedMatches
  have : t.rows.filter (rowMatchesProvided (providedIds nd)) = [] := by
    apply List.filter_eq_nil_iff.mpr
    intro r _
    simp [rowMatchesProvided, hp]
  rw [this]
  rfl

/-- The comparison used to sort the ID-based matches. -/
def mapIdLe (a b : PersonRow) : Bool := a.map_id ≤ b.map_id

/-- The survivor of branch A: the ID-based match with the smallest map_id. -/
def branchAPrimary (t : PersonTable) (nd : NormData) : PersonRow :=
  ((idBasedMatches t nd).mergeSort mapIdLe).headI

/-- The other ID-based matches, merged into the survivor and deleted. -/
def branchAOthers (t : PersonTable) (nd : NormData) : List PersonRow :=
  ((idBasedMatches t nd).mergeSort mapIdLe).tail

/-- The survivor row after the merge and the timestamp update. -/
def branchAUpdated (now : Nat) (t : PersonTable) (nd : NormData) : PersonRow :=
  { mergeAllSources nd (branchAPrimary t nd) (branchAOthers t nd) with
    last_updated_at := some now }

/-- The table rows after branch A: survivor updated, other matches
deleted. -/
def branchARows (now : Nat) (t : PersonTable) (nd : NormData) : List PersonRow :=
  (t.rows.map (fun r =>
    if r.map_id = (branchAPrimary t nd).map_id then branchAUpdated now t nd else r)).filter
    (fun r => !((branchAOthers t nd).map PersonRow.map_id).contains r.map_id)

/-- Unfolding of branch A (the ID-based merge) of `upsert_person`. -/
theorem upsert_person_branchA (now : Nat) (t : PersonTable) (d : PersonData)
    (h : idBasedMatches t (normalizeData d) ≠ []) :
    upsert_person now t d =
      (Int.ofNat (branchAPrimary t (normalizeData d)).map_id,
       { t with rows := branchARows now t (normalizeData d) }) := by
  have hprov := providedIds_ne_nil_of_matches t (normalizeData d) h
  unfold upsert_person
  simp only []
  rw [if_neg (fun hc => hprov hc.2), if_pos h]
  rfl

/-- Unfolding of the no-name-no-id failure of `upsert_person`. -/
theorem upsert_person_fail (now : Nat) (t : PersonTable) (d : PersonData)
    (hname : (normalizeData d).primary_name = "")
    (hA : idBasedMatches t (normalizeData d) = []) :
    upsert_person now t d = (-1, t) := by
  unfold upsert_person
  simp only []
  by_cases hp : providedIds (normalizeData d) = []
  · rw [if_pos ⟨hname, hp⟩]
  · rw [if_neg (fun hc => hp hc.2), if_neg (fun hc => hc hA), if_pos hname]

/-- Unfolding of branch B with an empty provided-ID set: the target's
map_id is returned and nothing is written. -/
theorem upsert_person_branchB_noids (now : Nat) (t : PersonTable) (d : PersonData)
    (hA : idBasedMatches t (normalizeData d) = [])
    (hname : (normalizeData d).primary_name ≠ "")
    (target : PersonRow)
    (htgt : potentialMergeTarget t (normalizeData d) = some target)
    (hp : providedIds (normalizeData d) = []) :
    upsert_person now t d = (Int.ofNat target.map_id, t) := by
  unfold upsert_person
  simp only []
  rw [if_neg (fun hc => hname hc.1), if_neg (fun hc => hc hA), if_neg hname, htgt]
  dsimp only
  rw [if_pos hp]

/-- Unfolding of branch B with provided IDs: the target receives them. -/
theorem upsert_person_branchB_ids (now : Nat) (t : PersonTable) (d : PersonData)
    (hA : idBasedMatches t (normalizeData d) = [])
    (hname : (normalizeData d).primary_name ≠ "")
    (target : PersonRow)
    (htgt : potentialMergeTarget t (normalizeData d) = some target)
    (hp : providedIds (normalizeData d) ≠ []) :
    upsert_person now t d =
      (Int.ofNat target.map_id,
       { t with rows := t.rows.map (fun r =>
          if r.map_id = target.map_id then
            { (providedIds (normalizeData d)).foldl
                (fun r fv => r.setId fv.1 (some fv.2)) target with
              last_updated_at := some now }
          else r) }) := by
  unfold upsert_person
  simp only []
  rw [if_neg (fun hc => hname hc.1), if_neg (fun hc => hc hA), if_neg hname, htgt]
  dsimp only
  rw [if_neg hp]

/-- Unfolding of branch C: a brand-new row is inserted. -/
theorem upsert_person_branchC (now : Nat) (t : PersonTable) (d : PersonData)
    (hA : idBasedMatches t (normalizeData d) = [])
    (hname : (normalizeData d).primary_name ≠ "")
    (htgt : potentialMergeTarget t (normalizeData d) = none) :
    upsert_person now t d =
      (Int.ofNat t.nextId,
       { rows := t.rows ++
          [{ map_id := t.nextId
             primary_name := (normalizeData d).primary_name
             emby_person_id := (normalizeData d).emby_person_id
             tmdb_person_id := (normalizeData d).tmdb_person_id
             imdb_id := (normalizeData d).imdb_id
             douban_celebrity_id := (normalizeData d).douban_celebrity_id
             last_synced_at := some now
             last_updated_at := some now }]
         nextId := t.nextId + 1 }) := by
  unfold upsert_person
  simp only []
  rw [if_neg (fun hc => hname hc.1), if_neg (fun hc => hc hA), if_neg hname, htgt]

end BranchLemmas

section SurvivorFacts

theorem getId_set_last_updated (x : PersonRow) (v : Option Nat) (f : IdField) :
    ({ x with last_updated_at := v } : PersonRow).getId f = x.getId f := by
  cases f <;> rfl

theorem optTruthy_isSome {o : Option String} (h : optTruthy o = true) : o.isSome := by
  cases o with
  | none => simp [optTruthy] at h
  | some s => rfl

theorem optTruthy_of_isSome {o : Option String} (hne : o ≠ some "")
    (h : o.isSome) : optTruthy o = true := by
  cases o with
  | none => simp at h
  | some s =>
    simp only [optTruthy]
    simp only [decide_eq_true_eq]
    intro hs
    exact hne (by rw [hs])

theorem not_optTruthy_of_none {o : Option String} (h : o = none) :
    ¬ optTruthy o = true := by
  subst h; simp [optTruthy]

theorem nd_getId_ne_empty (d : PersonData) (f : IdField) :
    (normalizeData d).getId f ≠ some "" := by
  unfold normalizeData
  cases f <;> exact normIdValue_ne_empty _

/-- Structural facts about the survivor and the other matches of branch A. -/
theorem branchA_facts (t : PersonTable) (nd : NormData)
    (hn : (t.rows.map PersonRow.map_id).Nodup)
    (h : idBasedMatches t nd ≠ []) :
    branchAPrimary t nd ∈ idBasedMatches t nd ∧
    (∀ r ∈ idBasedMatches t nd, (branchAPrimary t nd).map_id ≤ r.map_id) ∧
    (∀ o ∈ branchAOthers t nd, o ∈ idBasedMatches t nd ∧ o ≠ branchAPrimary t nd) ∧
    (branchAPrimary t nd).map_id ∉ (branchAOthers t nd).map PersonRow.map_id ∧
    (∀ r ∈ idBasedMatches t nd, r = branchAPrimary t nd ∨ r ∈ branchAOthers t nd) := by
  have hperm : List.Perm ((idBasedMatches t nd).mergeSort mapIdLe) (idBasedMatches t nd) :=
    List.mergeSort_perm _ mapIdLe
  have hsne : (idBasedMatches t nd).mergeSort mapIdLe ≠ [] := by
    intro hnil
    apply h
    have := hperm.length_eq
    rw [hnil] at this
    exact List.length_eq_zero.mp this.symm
  obtain ⟨a, l, hal⟩ := List.exists_cons_of_ne_nil hsne
  have hprim : branchAPrimary t nd = a := by unfold branchAPrimary; rw [hal]; rfl
  have hoth : branchAOthers t nd = l := by unfold branchAOthers; rw [hal]; rfl
  have hmsnodup : ((idBasedMatches t nd).map PersonRow.map_id).Nodup :=
    ((idBasedMatches_sublist t nd).map PersonRow.map_id).nodup hn
  have hsortnodup : (((idBasedMatches t nd).mergeSort mapIdLe).map PersonRow.map_id).Nodup :=
    (hperm.map PersonRow.map_id).nodup_iff.mpr hmsnodup
  have hpw : List.Pairwise (fun x y => mapIdLe x y = true)
      ((idBasedMatches t nd).mergeSort mapIdLe) :=
    List.sorted_mergeSort
      (by intro x y z hxy hyz; simp only [mapIdLe, decide_eq_true_eq] at *; omega)
      (by intro x y; simp only [mapIdLe]; rw [Bool.or_eq_true]; simp only [decide_eq_true_eq]; omega)
      (idBasedMatches t nd)
  rw [hal] at hpw hsortnodup
  rw [List.map_cons, List.nodup_cons] at hsortnodup
  rw [List.pairwise_cons] at hpw
  refine ⟨?_, ?_, ?_, ?_, ?_⟩
  · rw [hprim]
    exact hperm.subset (hal ▸ List.mem_cons_self a l)
  · intro r hr
    have : r ∈ (idBasedMatches t nd).mergeSort mapIdLe := hperm.mem_iff.mpr hr
    rw [hal, List.mem_cons] at this
    rcases this with rfl | hrl
    · rw [hprim]
    · rw [hprim]
      have := hpw.1 r hrl
      simpa [mapIdLe] using this
  · intro o ho
    rw [hoth] at ho
    constructor
    · exact hperm.subset (hal ▸ List.mem_cons_of_mem a ho)
    · rw [hprim]
      intro heq
      exact hsortnodup.1 (heq ▸ List.mem_map_of_mem PersonRow.map_id ho)
  · rw [hprim, hoth]
    exact hsortnodup.1
  · intro r hr
    have : r ∈ (idBasedMatches t nd).mergeSort mapIdLe := hperm.mem_iff.mpr hr
    rw [hal, List.mem_cons] at this
    rw [hprim, hoth]
    exact this

end SurvivorFacts

section C1Proof

/-- Core analysis of the ID-merge branch, shared by the claim theorems. -/
theorem upsert_id_merge_analysis (now : Nat) (t : PersonTable) (d : PersonData)
    (hwf : TableWF t)
    (h : idBasedMatches t (normalizeData d) ≠ []) :
    ∃ surv ∈ idBasedMatches t (normalizeData d),
      (∀ r ∈ idBasedMatches t (normalizeData d), surv.map_id ≤ r.map_id) ∧
      (upsert_person now t d).1 = Int.ofNat surv.map_id ∧
      (∃ merged ∈ (upsert_person now t d).2.rows,
        merged.map_id = surv.map_id ∧
        (∀ f, (surv.getId f).isSome → merged.getId f = surv.getId f) ∧
        (∀ f, surv.getId f = none →
          merged.getId f = none ∨
          (merged.getId f = (normalizeData d).getId f ∧
            ((normalizeData d).getId f).isSome) ∨
          (∃ o ∈ idBasedMatches t (normalizeData d), o ≠ surv ∧
            merged.getId f = o.getId f ∧ (o.getId f).isSome)) ∧
        (∀ f, surv.getId f = none →
          (((normalizeData d).getId f).isSome ∨
            ∃ o ∈ idBasedMatches t (normalizeData d), o ≠ surv ∧ (o.getId f).isSome) →
          (merged.getId f).isSome) ∧
        merged.primary_name =
          (if (normalizeData d).primary_name ≠ "" then (normalizeData d).primary_name
           else surv.primary_name)) ∧
      (∀ r ∈ idBasedMatches t (normalizeData d), r ≠ surv →
        ∀ r' ∈ (upsert_person now t d).2.rows, r'.map_id ≠ r.map_id) := by
  obtain ⟨hmem, hmin, hoth, hnotin, hdec⟩ := branchA_facts t (normalizeData d) hwf.nodup h
  have hsurv_rows : branchAPrimary t (normalizeData d) ∈ t.rows :=
    (idBasedMatches_sublist t (normalizeData d)).subset hmem
  have hupd_map_id : (branchAUpdated now t (normalizeData d)).map_id =
      (branchAPrimary t (normalizeData d)).map_id := by
    show (mergeAllSources _ _ _).map_id = _
    exact mergeAllSources_map_id _ _ _
  have hupd_getId : ∀ f, (branchAUpdated now t (normalizeData d)).getId f =
      (mergeAllSources (normalizeData d) (branchAPrimary t (normalizeData d))
        (branchAOthers t (normalizeData d))).getId f := by
    intro f
    exact getId_set_last_updated _ _ f
  refine ⟨branchAPrimary t (normalizeData d), hmem, hmin, ?_, ?_, ?_⟩
  · rw [upsert_person_branchA now t d h]
  · rw [upsert_person_branchA now t d h]
    refine ⟨branchAUpdated now t (normalizeData d), ?_, hupd_map_id, ?_, ?_, ?_, ?_⟩
    · -- membership of the merged survivor in the resulting rows
      show _ ∈ branchARows now t (normalizeData d)
      unfold branchARows
      rw [List.mem_filter]
      constructor
      · rw [List.mem_map]
        exact ⟨branchAPrimary t (normalizeData d), hsurv_rows, by rw [if_pos rfl]⟩
      · rw [hupd_map_id]
        simpa using hnotin
    · -- kept fields
      intro f hsome
      rw [hupd_getId f]
      exact mergeAllSources_keep _ _ _ f
        (optTruthy_of_isSome (hwf.clean _ hsurv_rows f) hsome)
    · -- provenance of filled fields
      intro f hnone
      rw [hupd_getId f]
      rcases mergeAllSources_provenance (normalizeData d)
          (branchAPrimary t (normalizeData d)) (branchAOthers t (normalizeData d)) f with
        h1 | ⟨h1, h2⟩ | ⟨o, ho, h1, h2⟩
      · exact Or.inl (h1.trans hnone)
      · exact Or.inr (Or.inl ⟨h1, optTruthy_isSome h2⟩)
      · exact Or.inr (Or.inr ⟨o, (hoth o ho).1, (hoth o ho).2, h1, optTruthy_isSome h2⟩)
    · -- fill when a value is available
      intro f hnone havail
      rw [hupd_getId f]
      apply optTruthy_isSome
      rw [mergeAllSources_fill _ _ _ f (not_optTruthy_of_none hnone)]
      rcases havail with hcand | ⟨o, ho, hne, hsome⟩
      · exact Or.inl (optTruthy_of_isSome (nd_getId_ne_empty d f) hcand)
      · refine Or.inr ⟨o, ?_, optTruthy_of_isSome
          (hwf.clean o ((idBasedMatches_sublist t (normalizeData d)).subset ho) f) hsome⟩
        rcases hdec o ho with rfl | hoin
        · exact absurd rfl hne
        · exact hoin
    · -- primary name
      show (mergeAllSources _ _ _).primary_name = _
      exact mergeAllSources_primary_name _ _ _
  · -- the other matched rows are deleted
    intro r hr hne r' hr'
    rw [upsert_person_branchA now t d h] at hr'
    have hr'' : r' ∈ branchARows now t (normalizeData d) := hr'
    unfold branchARows at hr''
    rw [List.mem_filter] at hr''
    have hcond := hr''.2
    have hrin : r ∈ branchAOthers t (normalizeData d) := by
      rcases hdec r hr with rfl | hin
      · exact absurd rfl hne
      · exact hin
    intro heq
    simp at hcond
    exact hcond r hrin heq.symm

end C1Proof

section BranchBCLemmas

/-- When the ID query is empty, no row carries any provided (field, value)
pair. -/
theorem no_match_of_idBasedMatches_nil (t : PersonTable) (nd : NormData)
    (hn : (t.rows.map PersonRow.map_id).Nodup)
    (hA : idBasedMatches t nd = []) :
    ∀ r ∈ t.rows, ∀ f v, (f, v) ∈ providedIds nd → r.getId f ≠ some v := by
  intro r hr f v hfv hval
  have : r ∈ idBasedMatches t nd := by
    rw [mem_idBasedMatches t nd hn]
    exact ⟨hr, rowMatchesProvided_of_getId _ r f v hfv hval⟩
  rw [hA] at this
  exact List.not_mem_nil r this

/-- Facts about a found soft-merge target. -/
theorem potentialMergeTarget_facts (t : PersonTable) (nd : NormData)
    (target : PersonRow)
    (h : potentialMergeTarget t nd = some target) :
    target ∈ t.rows ∧ target.primary_name = nd.primary_name ∧
      ¬((providedIds nd).isEmpty = false ∧ hasAnyId target = true) := by
  unfold potentialMergeTarget at h
  have hmem := List.mem_of_find?_eq_some h
  have hprop := List.find?_some h
  rw [List.mem_filter] at hmem
  refine ⟨hmem.1, by simpa using hmem.2, ?_⟩
  intro ⟨h1, h2⟩
  rw [Bool.not_eq_true', Bool.and_eq_false_iff] at hprop
  rcases hprop with h' | h'
  · rw [h1] at h'
    simp at h'
  · simp [h2] at h'

theorem setFold_getId_notin (fs : List (IdField × String)) (target : PersonRow)
    (f : IdField) (h : ∀ v, (f, v) ∉ fs) :
    (fs.foldl (fun r fv => r.setId fv.1 (some fv.2)) target).getId f =
      target.getId f := by
  induction fs generalizing target with
  | nil => rfl
  | cons a l ih =>
    rw [List.foldl_cons]
    rw [ih _ (fun v hv => h v (List.mem_cons_of_mem a hv))]
    apply getId_setId_ne
    intro hf
    exact h a.2 (by rw [← hf] at *; exact List.mem_cons_self a l)

theorem setFold_getId_in (fs : List (IdField × String)) (target : PersonRow)
    (f : IdField) (v : String) (hnd : (fs.map Prod.fst).Nodup)
    (h : (f, v) ∈ fs) :
    (fs.foldl (fun r fv => r.setId fv.1 (some fv.2)) target).getId f = some v := by
  induction fs generalizing target with
  | nil => exact absurd h (List.not_mem_nil _)
  | cons a l ih =>
    rw [List.map_cons, List.nodup_cons] at hnd
    rw [List.foldl_cons]
    rcases List.mem_cons.mp h with heq | hmem
    · subst heq
      rw [setFold_getId_notin l _ f
        (fun v' hv' => hnd.1 (by simpa using List.mem_map_of_mem Prod.fst hv'))]
      exact getId_setId_same target f (some v)
    · exact ih _ hnd.2 hmem

theorem setFold_map_id (fs : List (IdField × String)) (target : PersonRow) :
    (fs.foldl (fun r fv => r.setId fv.1 (some fv.2)) target).map_id =
      target.map_id := by
  induction fs generalizing target with
  | nil => rfl
  | cons a l ih => rw [List.foldl_cons, ih, map_id_setId]

theorem setFold_primary_name (fs : List (IdField × String)) (target : PersonRow) :
    (fs.foldl (fun r fv => r.setId fv.1 (some fv.2)) target).primary_name =
      target.primary_name := by
  induction fs generalizing target with
  | nil => rfl
  | cons a l ih => rw [List.foldl_cons, ih, primary_name_setId]

theorem providedIds_fields_sublist (nd : NormData) :
    ((providedIds nd).map Prod.fst).Sublist id_fields := by
  unfold providedIds
  generalize id_fields = fs
  induction fs with
  | nil => simp
  | cons a l ih =>
    rw [List.filterMap_cons]
    cases h : nd.getId a with
    | none => exact ih.cons a
    | some v =>
      rw [Option.map_some']
      rw [List.map_cons]
      exact ih.cons₂ a

theorem providedIds_fields_nodup (nd : NormData) :
    ((providedIds nd).map Prod.fst).Nodup :=
  (providedIds_fields_sublist nd).nodup (by decide)

/-- The field update applied to the soft-merge target. -/
def branchBTarget (now : Nat) (nd : NormData) (target : PersonRow) : PersonRow :=
  { (providedIds nd).foldl (fun r fv => r.setId fv.1 (some fv.2)) target with
    last_updated_at := some now }

theorem branchBTarget_getId (now : Nat) (nd : NormData) (target : PersonRow)
    (f : IdField) :
    (branchBTarget now nd target).getId f = (nd.getId f).or (target.getId f) := by
  unfold branchBTarget
  rw [getId_set_last_updated]
  cases hf : nd.getId f with
  | some v =>
    rw [Option.or_some]
    exact setFold_getId_in _ _ f v (providedIds_fields_nodup nd)
      ((providedIds_mem_iff nd f v).mpr hf)
  | none =>
    rw [Option.none_or]
    apply setFold_getId_notin
    intro v hv
    rw [providedIds_mem_iff nd f v] at hv
    rw [hf] at hv
    cases hv

theorem branchBTarget_map_id (now : Nat) (nd : NormData) (target : PersonRow) :
    (branchBTarget now nd target).map_id = target.map_id := by
  unfold branchBTarget
  exact setFold_map_id _ _

end BranchBCLemmas

section Preservation

theorem mapReplace_mem {r' : PersonRow} (rows : List PersonRow) (tid : Nat)
    (upd : PersonRow)
    (h : r' ∈ rows.map (fun r => if r.map_id = tid then upd else r)) :
    r' = upd ∨ (r' ∈ rows ∧ r'.map_id ≠ tid) := by
  rw [List.mem_map] at h
  obtain ⟨r, hr, heq⟩ := h
  by_cases hid : r.map_id = tid
  · left; rw [← heq, if_pos hid]
  · right
    constructor
    · rw [← heq, if_neg hid]; exact hr
    · rw [← heq, if_neg hid]; exact hid

theorem mapReplace_map_id (rows : List PersonRow) (tid : Nat) (upd : PersonRow)
    (hupd : upd.map_id = tid) :
    (rows.map (fun r => if r.map_id = tid then upd else r)).map PersonRow.map_id =
      rows.map PersonRow.map_id := by
  rw [List.map_map]
  apply List.map_congr_left
  intro r _
  by_cases hid : r.map_id = tid
  · simp [Function.comp, hid, hupd]
  · simp [Function.comp, hid]

theorem branchAUpdated_map_id (now : Nat) (t : PersonTable) (nd : NormData) :
    (branchAUpdated now t nd).map_id = (branchAPrimary t nd).map_id := by
  unfold branchAUpdated
  exact mergeAllSources_map_id _ _ _

theorem branchAUpdated_getId_cases (now : Nat) (t : PersonTable) (nd : NormData)
    (f : IdField) :
    (branchAUpdated now t nd).getId f = (branchAPrimary t nd).getId f ∨
    ((branchAUpdated now t nd).getId f = nd.getId f ∧ optTruthy (nd.getId f)) ∨
    ∃ o ∈ branchAOthers t nd, (branchAUpdated now t nd).getId f = o.getId f ∧
      optTruthy (o.getId f) := by
  have hg : (branchAUpdated now t nd).getId f =
      (mergeAllSources nd (branchAPrimary t nd) (branchAOthers t nd)).getId f :=
    getId_set_last_updated _ _ f
  rcases mergeAllSources_provenance nd (branchAPrimary t nd) (branchAOthers t nd) f with
    h1 | ⟨h1, h2⟩ | ⟨o, ho, h1, h2⟩
  · exact Or.inl (hg.trans h1)
  · exact Or.inr (Or.inl ⟨hg.trans h1, h2⟩)
  · exact Or.inr (Or.inr ⟨o, ho, hg.trans h1, h2⟩)

theorem branchARows_mem_cases (now : Nat) (t : PersonTable) (nd : NormData)
    (r' : PersonRow) (h : r' ∈ branchARows now t nd) :
    (r' = branchAUpdated now t nd ∨
      (r' ∈ t.rows ∧ r'.map_id ≠ (branchAPrimary t nd).map_id)) ∧
    r'.map_id ∉ (branchAOthers t nd).map PersonRow.map_id := by
  unfold branchARows at h
  rw [List.mem_filter] at h
  obtain ⟨hm, hc⟩ := h
  constructor
  · exact mapReplace_mem t.rows _ _ hm
  · simp only [Bool.not_eq_eq_eq_not, Bool.not_false] at hc
    intro hmm
    rw [List.mem_map] at hmm
    obtain ⟨o, ho, hoid⟩ := hmm
    simp at hc
    exact hc o ho hoid

theorem branchARows_map_id_sub (now : Nat) (t : PersonTable) (nd : NormData) :
    ((branchARows now t nd).map PersonRow.map_id).Sublist
      (t.rows.map PersonRow.map_id) := by
  unfold branchARows
  have := (List.filter_sublist
    (l := t.rows.map (fun r =>
      if r.map_id = (branchAPrimary t nd).map_id then branchAUpdated now t nd else r))
    (p := fun r => !((branchAOthers t nd).map PersonRow.map_id).contains r.map_id)).map
      PersonRow.map_id
  rwa [mapReplace_map_id t.rows _ _ (branchAUpdated_map_id now t nd)] at this

/-- Preservation of table well-formedness and identity uniqueness by one
`upsert_person` call, in every branch. -/
theorem upsert_preserves (now : Nat) (t : PersonTable) (d : PersonData)
    (hwf : TableWF t) (hu : UniqueIds t) :
    TableWF (upsert_person now t d).2 ∧ UniqueIds (upsert_person now t d).2 := by
  by_cases hA : idBasedMatches t (normalizeData d) = []
  · by_cases hname : (normalizeData d).primary_name = ""
    · rw [upsert_person_fail now t d hname hA]
      exact ⟨hwf, hu⟩
    · have hnomatch := no_match_of_idBasedMatches_nil t (normalizeData d) hwf.nodup hA
      cases htgt : potentialMergeTarget t (normalizeData d) with
      | none =>
        rw [upsert_person_branchC now t d hA hname htgt]
        have hnewget : ∀ f,
            (({ map_id := t.nextId
                primary_name := (normalizeData d).primary_name
                emby_person_id := (normalizeData d).emby_person_id
                tmdb_person_id := (normalizeData d).tmdb_person_id
                imdb_id := (normalizeData d).imdb_id
                douban_celebrity_id := (normalizeData d).douban_celebrity_id
                last_synced_at := some now
                last_updated_at := some now } : PersonRow)).getId f =
              (normalizeData d).getId f := by
          intro f; cases f <;> rfl
        constructor
        · refine ⟨?_, ?_, ?_⟩
          · rw [List.map_append]
            rw [List.nodup_append]
            refine ⟨hwf.nodup, by simp, ?_⟩
            intro x hx
            simp only [List.map_cons, List.map_nil, List.mem_singleton]
            rw [List.mem_map] at hx
            obtain ⟨r, hr, rfl⟩ := hx
            exact Nat.ne_of_lt (hwf.lt_next r hr)
          · intro r hr
            rw [List.mem_append] at hr
            rcases hr with hr | hr
            · exact Nat.lt_succ_of_lt (hwf.lt_next r hr)
            · rw [List.mem_singleton] at hr
              subst hr
              exact Nat.lt_succ_self _
          · intro r hr f
            rw [List.mem_append] at hr
            rcases hr with hr | hr
            · exact hwf.clean r hr f
            · rw [List.mem_singleton] at hr
              subst hr
              rw [hnewget f]
              exact nd_getId_ne_empty d f
        · intro f v hv r1 h1 r2 h2 hv1 hv2
          rw [List.mem_append, List.mem_singleton] at h1 h2
          have hnew : ∀ r ∈ t.rows, r.getId f = some v →
              (normalizeData d).getId f = some v → False := by
            intro r hr hrv hnd
            exact hnomatch r hr f v ((providedIds_mem_iff _ f v).mpr hnd) hrv
          rcases h1 with h1 | rfl <;> rcases h2 with h2 | h2
          · exact hu f v hv r1 h1 r2 h2 hv1 hv2
          · subst h2
            rw [hnewget f] at hv2
            exact absurd (hnew r1 h1 hv1 hv2) not_false
          · rw [hnewget f] at hv1
            exact absurd (hnew r2 h2 hv2 hv1) not_false
          · rw [h2]
      | some target =>
        obtain ⟨htrows, htname, _⟩ := potentialMergeTarget_facts t _ target htgt
        by_cases hp : providedIds (normalizeData d) = []
        · rw [upsert_person_branchB_noids now t d hA hname target htgt hp]
          exact ⟨hwf, hu⟩
        · have heq : upsert_person now t d =
              (Int.ofNat target.map_id,
               { t with rows := t.rows.map (fun r =>
                  if r.map_id = target.map_id then
                    branchBTarget now (normalizeData d) target
                  else r) }) := by
            rw [upsert_person_branchB_ids now t d hA hname target htgt hp]
            rfl
          rw [heq]
          have hmapids : ((t.rows.map (fun r =>
              if r.map_id = target.map_id then
                branchBTarget now (normalizeData d) target
              else r)).map PersonRow.map_id) = t.rows.map PersonRow.map_id :=
            mapReplace_map_id t.rows _ _ (branchBTarget_map_id now _ target)
          constructor
          · refine ⟨?_, ?_, ?_⟩
            · rw [hmapids]; exact hwf.nodup
            · intro r hr
              rcases mapReplace_mem t.rows _ _ hr with rfl | ⟨hr', _⟩
              · rw [branchBTarget_map_id]
                exact hwf.lt_next target htrows
              · exact hwf.lt_next _ hr'
            · intro r hr f
              rcases mapReplace_mem t.rows _ _ hr with rfl | ⟨hr', _⟩
              · rw [branchBTarget_getId]
                cases hnd : (normalizeData d).getId f with
                | some v' =>
                  rw [Option.or_some]
                  intro hev
                  apply nd_getId_ne_empty d f
                  rw [hnd, ← hev]
                | none =>
                  rw [Option.none_or]
                  exact hwf.clean target htrows f
              · exact hwf.clean _ hr' f
          · intro f v hv r1 h1 r2 h2 hv1 hv2
            have key : ∀ r ∈ t.rows, r.map_id ≠ target.map_id →
                r.getId f = some v →
                (branchBTarget now (normalizeData d) target).getId f = some v →
                False := by
              intro r hrin hrne hrv hbv
              rw [branchBTarget_getId] at hbv
              cases hnd : (normalizeData d).getId f with
              | some v' =>
                rw [hnd, Option.or_some] at hbv
                have : (f, v) ∈ providedIds (normalizeData d) :=
                  (providedIds_mem_iff _ f v).mpr (by rw [hnd, hbv])
                exact hnomatch r hrin f v this hrv
              | none =>
                rw [hnd, Option.none_or] at hbv
                have := hu f v hv target htrows r hrin hbv hrv
                exact hrne (by rw [← this])
            rcases mapReplace_mem t.rows _ _ h1 with rfl | ⟨hin1, hne1⟩ <;>
              rcases mapReplace_mem t.rows _ _ h2 with rfl | ⟨hin2, hne2⟩
            · rfl
            · exact absurd (key r2 hin2 hne2 hv2 hv1) not_false
            · exact absurd (key r1 hin1 hne1 hv1 hv2) not_false
            · exact hu f v hv r1 hin1 r2 hin2 hv1 hv2
  · -- branch A
    obtain ⟨hmem, hmin, hoth, hnotin, hdec⟩ :=
      branchA_facts t (normalizeData d) hwf.nodup hA
    have hsurv_rows : branchAPrimary t (normalizeData d) ∈ t.rows :=
      (idBasedMatches_sublist _ _).subset hmem
    rw [upsert_person_branchA now t d hA]
    have hsubmap := branchARows_map_id_sub now t (normalizeData d)
    constructor
    · refine ⟨hsubmap.nodup hwf.nodup, ?_, ?_⟩
      · intro r' hr'
        rcases (branchARows_mem_cases now t _ r' hr').1 with rfl | ⟨hrin, _⟩
        · rw [branchAUpdated_map_id]
          exact hwf.lt_next _ hsurv_rows
        · exact hwf.lt_next _ hrin
      · intro r' hr' f
        rcases (branchARows_mem_cases now t _ r' hr').1 with rfl | ⟨hrin, _⟩
        · rcases branchAUpdated_getId_cases now t _ f with h1 | ⟨h1, _⟩ | ⟨o, ho, h1, _⟩
          · rw [h1]; exact hwf.clean _ hsurv_rows f
          · rw [h1]; exact nd_getId_ne_empty d f
          · rw [h1]
            exact hwf.clean o ((idBasedMatches_sublist _ _).subset (hoth o ho).1) f
        · exact hwf.clean _ hrin f
    · intro f v hv r1 h1 r2 h2 hv1 hv2
      obtain ⟨hc1, hn1⟩ := branchARows_mem_cases now t _ r1 h1
      obtain ⟨hc2, hn2⟩ := branchARows_mem_cases now t _ r2 h2
      have key : ∀ r ∈ t.rows, r.map_id ≠ (branchAPrimary t (normalizeData d)).map_id →
          r.map_id ∉ (branchAOthers t (normalizeData d)).map PersonRow.map_id →
          r.getId f = some v →
          (branchAUpdated now t (normalizeData d)).getId f = some v → False := by
        intro r hrin hrne hrno hrv huv
        rcases branchAUpdated_getId_cases now t _ f with hcase | ⟨hcase, _⟩ | ⟨o, ho, hcase, _⟩
        · rw [hcase] at huv
          have := hu f v hv _ hsurv_rows r hrin huv hrv
          exact hrne (by rw [← this])
        · rw [hcase] at huv
          have hfv : (f, v) ∈ providedIds (normalizeData d) :=
            (providedIds_mem_iff _ f v).mpr huv
          have hrm : r ∈ idBasedMatches t (normalizeData d) :=
            (mem_idBasedMatches t _ hwf.nodup r).mpr
              ⟨hrin, rowMatchesProvided_of_getId _ r f v hfv hrv⟩
          rcases hdec r hrm with rfl | hro
          · exact hrne rfl
          · exact hrno (List.mem_map_of_mem PersonRow.map_id hro)
        · rw [hcase] at huv
          have := hu f v hv o
            ((idBasedMatches_sublist _ _).subset (hoth o ho).1) r hrin huv hrv
          exact hrno (this ▸ List.mem_map_of_mem PersonRow.map_id ho)
      rcases hc1 with rfl | ⟨hin1, hne1⟩ <;> rcases hc2 with rfl | ⟨hin2, hne2⟩
      · rfl
      · exact absurd (key r2 hin2 hne2 hn2 hv2 hv1) not_false
      · exact absurd (key r1 hin1 hne1 hn1 hv1 hv2) not_false
      · exact hu f v hv r1 hin1 r2 hin2 hv1 hv2

end Preservation

section SoftMergeCharacterization

/-- The fuseability test of the name-based soft merge, in propositional
form: same name, and not (candidate has IDs and the row has IDs). -/
def Fuseable (nd : NormData) (r : PersonRow) : Prop :=
  r.primary_name = nd.primary_name ∧ ¬(providedIds nd ≠ [] ∧ hasAnyId r = true)

theorem pmt_pred_iff (nd : NormData) (r : PersonRow) :
    ((r.primary_name == nd.primary_name) = true ∧
      (!(!(providedIds nd).isEmpty && hasAnyId r)) = true) ↔ Fuseable nd r := by
  unfold Fuseable
  rw [beq_iff_eq, Bool.not_eq_true', Bool.and_eq_false_iff]
  constructor
  · rintro ⟨h1, h2⟩
    refine ⟨h1, fun hc => ?_⟩
    rcases h2 with h2 | h2
    · have h2' : (providedIds nd).isEmpty = true := by
        cases hb : (providedIds nd).isEmpty
        · rw [hb] at h2; cases h2
        · rfl
      exact hc.1 (List.isEmpty_iff.mp h2')
    · rw [hc.2] at h2
      cases h2
  · rintro ⟨h1, h2⟩
    refine ⟨h1, ?_⟩
    by_cases he : providedIds nd = []
    · left
      rw [List.isEmpty_iff.mpr he]
      rfl
    · cases hh : hasAnyId r
      · exact Or.inr rfl
      · exact absurd ⟨he, hh⟩ h2

theorem potentialMergeTarget_some_iff (t : PersonTable) (nd : NormData)
    (target : PersonRow) :
    potentialMergeTarget t nd = some target ↔
      Fuseable nd target ∧
      ∃ pre post, t.rows = pre ++ target :: post ∧
        ∀ r ∈ pre, ¬ Fuseable nd r := by
  unfold potentialMergeTarget
  rw [List.find?_filter, List.find?_eq_some]
  constructor
  · intro ⟨hp, pre, post, hsplit, hpre⟩
    rw [decide_eq_true_eq] at hp
    refine ⟨(pmt_pred_iff nd target).mp hp, pre, post, hsplit, ?_⟩
    intro r hr
    have := hpre r hr
    rw [Bool.not_eq_true', decide_eq_false_iff_not] at this
    exact fun hc => this ((pmt_pred_iff nd r).mpr hc)
  · intro ⟨hf, pre, post, hsplit, hpre⟩
    refine ⟨by rw [decide_eq_true_eq]; exact (pmt_pred_iff nd target).mpr hf,
      pre, post, hsplit, ?_⟩
    intro r hr
    rw [Bool.not_eq_true', decide_eq_false_iff_not]
    exact fun hc => hpre r hr ((pmt_pred_iff nd r).mp hc)

theorem potentialMergeTarget_none_iff (t : PersonTable) (nd : NormData) :
    potentialMergeTarget t nd = none ↔ ∀ r ∈ t.rows, ¬ Fuseable nd r := by
  unfold potentialMergeTarget
  rw [List.find?_filter, List.find?_eq_none]
  constructor
  · intro h r hr hc
    exact h r hr (by rw [decide_eq_true_eq]; exact (pmt_pred_iff nd r).mpr hc)
  · intro h r hr hp
    rw [decide_eq_true_eq] at hp
    exact h r hr ((pmt_pred_iff nd r).mp hp)

theorem providedIds_nil_getId (nd : NormData) (hp : providedIds nd = [])
    (f : IdField) : nd.getId f = none := by
  cases hf : nd.getId f with
  | none => rfl
  | some v =>
    have : (f, v) ∈ providedIds nd := (providedIds_mem_iff nd f v).mpr hf
    rw [hp] at this
    cases this

theorem branchBTarget_primary_name (now : Nat) (nd : NormData) (target : PersonRow) :
    (branchBTarget now nd target).primary_name = target.primary_name := by
  unfold branchBTarget
  exact setFold_primary_name _ _

end SoftMergeCharacterization

/-- Unfolding of the initial guard of `upsert_person`: no name and no IDs
fail with -1. -/
theorem upsert_person_noinput (now : Nat) (t : PersonTable) (d : PersonData)
    (hn : (normalizeData d).primary_name = "")
    (hp : providedIds (normalizeData d) = []) :
    upsert_person now t d = (-1, t) := by
  unfold upsert_person
  simp only []
  rw [if_pos ⟨hn, hp⟩]

/-! ### Claim C1: the ID-based merge of `upsert_person` -/

/-- What claim C1 asserts about an upsert that matches existing rows by
ID: the survivor is the matched row with the smallest map_id, its null
external-ID fields are filled from the candidate or another matched row,
its name is overwritten by a non-empty candidate name, the other matched
rows are deleted, and the survivor's map_id is returned. -/
def UpsertMergeSpec (now : Nat) (t : PersonTable) (d : PersonData) : Prop :=
  ∃ surv ∈ idBasedMatches t (normalizeData d),
    (∀ r ∈ idBasedMatches t (normalizeData d), surv.map_id ≤ r.map_id) ∧
    (upsert_person now t d).1 = Int.ofNat surv.map_id ∧
    (∃ merged ∈ (upsert_person now t d).2.rows,
      merged.map_id = surv.map_id ∧
      (∀ f, (surv.getId f).isSome → merged.getId f = surv.getId f) ∧
      (∀ f, surv.getId f = none →
        merged.getId f = none ∨
        (merged.getId f = (normalizeData d).getId f ∧
          ((normalizeData d).getId f).isSome) ∨
        (∃ o ∈ idBasedMatches t (normalizeData d), o ≠ surv ∧
          merged.getId f = o.getId f ∧ (o.getId f).isSome)) ∧
      (∀ f, surv.getId f = none →
        (((normalizeData d).getId f).isSome ∨
          ∃ o ∈ idBasedMatches t (normalizeData d), o ≠ surv ∧ (o.getId f).isSome) →
        (merged.getId f).isSome) ∧
      merged.primary_name =
        (if (normalizeData d).primary_name ≠ "" then (normalizeData d).primary_name
         else surv.primary_name)) ∧
    (∀ r ∈ idBasedMatches t (normalizeData d), r ≠ surv →
      ∀ r' ∈ (upsert_person now t d).2.rows, r'.map_id ≠ r.map_id)

/-- C1. For every Upsert on a well-formed identity table in which at least
one existing row matches a provided external ID, the surviving row is the
matched row with the smallest map_id; each of its external-ID fields keeps
its existing value unless null, in which case it is filled from the
candidate or another matched row (whenever one offers a value); the
survivor's primary_name is overwritten by the candidate's non-empty name;
all other matched rows are deleted; and the survivor's map_id is
returned. -/
theorem upsert_id_merge_claim (now : Nat) (t : PersonTable) (d : PersonData)
    (hwf : TableWF t)
    (h : idBasedMatches t (normalizeData d) ≠ []) :
    UpsertMergeSpec now t d :=
  upsert_id_merge_analysis now t d hwf h

/-- The concrete table used by the C1 and C2 witnesses. -/
def tW : PersonTable :=
  { rows := [{ map_id := 1, primary_name := "A", emby_person_id := some "E1" },
             { map_id := 2, primary_name := "B", tmdb_person_id := some "T1" }]
    nextId := 3 }

/-- The concrete candidate used by the C1 and C2 witnesses. -/
def dW : PersonData :=
  { name := some "New", emby_id := some "E1", tmdb_id := some "T1" }

/-- Witness for C1: the merge claim applied to a concrete two-row table
whose rows share the candidate's emby and tmdb IDs. -/
theorem upsert_id_merge_claim_witness :
    TableWF tW ∧ idBasedMatches tW (normalizeData dW) ≠ [] ∧
      UpsertMergeSpec 7 tW dW :=
  ⟨⟨by decide, by decide, by decide⟩, by decide,
    upsert_id_merge_claim 7 tW dW ⟨by decide, by decide, by decide⟩ (by decide)⟩

/-! ### Claim C2: `upsert_person` preserves identity uniqueness -/

/-- C2. For every well-formed starting table in which each non-null
external ID value occurs in at most one row, any Upsert call (ID-merge,
name-based soft-merge or insert branch) leaves a table in which each
non-null external ID value still occurs in at most one row (and the table
stays well-formed). -/
theorem upsert_uniqueness_claim (now : Nat) (t : PersonTable) (d : PersonData)
    (hwf : TableWF t) (hu : UniqueIds t) :
    TableWF (upsert_person now t d).2 ∧ UniqueIds (upsert_person now t d).2 :=
  upsert_preserves now t d hwf hu

/-- Witness for C2: uniqueness preservation applied to the concrete table
and candidate of the C1 witness. -/
theorem upsert_uniqueness_claim_witness :
    TableWF tW ∧ UniqueIds tW ∧
      (TableWF (upsert_person 7 tW dW).2 ∧ UniqueIds (upsert_person 7 tW dW).2) := by
  have hwf : TableWF tW := ⟨by decide, by decide, by decide⟩
  have hu : UniqueIds tW := by
    intro f v hv r1 h1 r2 h2 hv1 hv2
    simp only [tW, List.mem_cons, List.not_mem_nil, or_false] at h1 h2
    rcases h1 with rfl | rfl <;> rcases h2 with rfl | rfl <;>
      cases f <;> simp_all [PersonRow.getId]
  exact ⟨hwf, hu, upsert_uniqueness_claim 7 tW dW hwf hu⟩

/-! ### Claim C8: the no-ID-match path of `upsert_person` -/

/-- What claim C8 asserts about the no-ID-match path: the failure result
-1 on empty input, the first-fuseable-row selection rule of the
name-based soft merge, the ID transfer onto the chosen target, and the
insert fallback. -/
def UpsertSoftMergeSpec (now : Nat) (t : PersonTable) (d : PersonData) : Prop :=
  ((normalizeData d).primary_name = "" ∧ providedIds (normalizeData d) = [] →
    upsert_person now t d = (-1, t)) ∧
  (idBasedMatches t (normalizeData d) = [] → (normalizeData d).primary_name ≠ "" →
    (∀ target, potentialMergeTarget t (normalizeData d) = some target →
      (target.primary_name = (normalizeData d).primary_name ∧
        ¬(providedIds (normalizeData d) ≠ [] ∧ hasAnyId target = true) ∧
        ∃ pre post, t.rows = pre ++ target :: post ∧
          ∀ r ∈ pre, r.primary_name = (normalizeData d).primary_name →
            (providedIds (normalizeData d) ≠ [] ∧ hasAnyId r = true)) ∧
      (upsert_person now t d).1 = Int.ofNat target.map_id ∧
      (∃ target' ∈ (upsert_person now t d).2.rows,
        target'.map_id = target.map_id ∧
        (∀ f, target'.getId f =
          ((normalizeData d).getId f).or (target.getId f)) ∧
        target'.primary_name = target.primary_name) ∧
      (∀ r ∈ t.rows, r.map_id ≠ target.map_id →
        r ∈ (upsert_person now t d).2.rows)) ∧
    (potentialMergeTarget t (normalizeData d) = none →
      (upsert_person now t d).1 = Int.ofNat t.nextId ∧
      ∃ nr, (upsert_person now t d).2.rows = t.rows ++ [nr] ∧
        nr.map_id = t.nextId ∧
        nr.primary_name = (normalizeData d).primary_name ∧
        (∀ f, nr.getId f = (normalizeData d).getId f)))

/-- C8. Upsert with no provided name and no provided IDs returns -1; when
no row matches any provided ID and the candidate name is non-empty, the
first row with the candidate's primary_name is the merge target unless
both the candidate and that row carry external IDs (such rows are
skipped), the target receives the candidate's provided IDs and its map_id
is returned; when no such row exists a new row carrying the candidate's
fields is inserted and its id returned. -/
theorem upsert_soft_merge_claim (now : Nat) (t : PersonTable) (d : PersonData) :
    UpsertSoftMergeSpec now t d := by
  refine ⟨fun ⟨hn, hp⟩ => upsert_person_noinput now t d hn hp, ?_⟩
  intro hA hname
  constructor
  · intro target htgt
    obtain ⟨hfuse, pre, post, hsplit, hpre⟩ :=
      (potentialMergeTarget_some_iff t (normalizeData d) target).mp htgt
    have htrows : target ∈ t.rows := by
      rw [hsplit]
      exact List.mem_append_right pre (List.mem_cons_self target post)
    refine ⟨⟨hfuse.1, hfuse.2, pre, post, hsplit, ?_⟩, ?_⟩
    · intro r hr hnm
      rcases em (providedIds (normalizeData d) ≠ [] ∧ hasAnyId r = true) with hc | hc
      · exact hc
      · exact absurd ⟨hnm, hc⟩ (hpre r hr)
    · by_cases hp : providedIds (normalizeData d) = []
      · rw [upsert_person_branchB_noids now t d hA hname target htgt hp]
        refine ⟨rfl, ⟨target, htrows, rfl, ?_, rfl⟩, fun r hr _ => hr⟩
        intro f
        rw [providedIds_nil_getId _ hp f, Option.none_or]
      · have heq : upsert_person now t d =
            (Int.ofNat target.map_id,
             { t with rows := t.rows.map (fun r =>
                if r.map_id = target.map_id then
                  branchBTarget now (normalizeData d) target
                else r) }) := by
          rw [upsert_person_branchB_ids now t d hA hname target htgt hp]
          rfl
        rw [heq]
        refine ⟨rfl, ⟨branchBTarget now (normalizeData d) target, ?_,
          branchBTarget_map_id now _ target,
          fun f => branchBTarget_getId now _ target f,
          branchBTarget_primary_name now _ target⟩, ?_⟩
        · rw [List.mem_map]
          exact ⟨target, htrows, by rw [if_pos rfl]⟩
        · intro r hr hrne
          rw [List.mem_map]
          exact ⟨r, hr, by rw [if_neg hrne]⟩
  · intro htgt
    rw [upsert_person_branchC now t d hA hname htgt]
    exact ⟨rfl, _, rfl, rfl, rfl, fun f => by cases f <;> rfl⟩

/-- The concrete table of the C8 witness: one placeholder row with the
candidate's name and no IDs. -/
def tW8 : PersonTable :=
  { rows := [{ map_id := 4, primary_name := "John" }], nextId := 5 }

/-- The concrete candidate of the C8 witness. -/
def dW8 : PersonData := { name := some "John", imdb_id := some "nm1" }

/-- Witness for C8: the soft-merge claim applied to a concrete one-row
table holding a placeholder with the candidate's name; the placeholder's
map_id 4 is returned. -/
theorem upsert_soft_merge_claim_witness :
    (upsert_person 9 tW8 dW8).1 = Int.ofNat 4 :=
  ((upsert_soft_merge_claim 9 tW8 dW8).2 (by decide) (by decide)).1
    { map_id := 4, primary_name := "John" } (by decide) |>.2.1

/-! ### Claim C4: the per-field translator -/

theorem pyStrip_data_eq (s : String) :
    (pyStrip s).data = (s.data.dropWhile pyIsSpace).rdropWhile pyIsSpace := rfl

theorem dropWhile_eq_cons_head_false {p : Char → Bool} {l bs : List Char} {b : Char}
    (h : l.dropWhile p = b :: bs) : p b = false := by
  induction l with
  | nil => cases h
  | cons a as ih =>
    rw [List.dropWhile_cons] at h
    split at h
    · exact ih h
    · rename_i hpa
      cases h
      simpa using hpa

theorem pyStrip_idem (s : String) : pyStrip (pyStrip s) = pyStrip s := by
  have hdata : (pyStrip (pyStrip s)).data = (pyStrip s).data := by
    rw [pyStrip_data_eq (pyStrip s), pyStrip_data_eq s]
    have hdrop : ((s.data.dropWhile pyIsSpace).rdropWhile pyIsSpace).dropWhile pyIsSpace =
        (s.data.dropWhile pyIsSpace).rdropWhile pyIsSpace := by
      cases hB : (s.data.dropWhile pyIsSpace).rdropWhile pyIsSpace with
      | nil => rfl
      | cons b bs =>
        have hpre := List.rdropWhile_prefix pyIsSpace (s.data.dropWhile pyIsSpace)
        rw [hB] at hpre
        obtain ⟨tl, htl⟩ := hpre
        have hb : pyIsSpace b = false :=
          dropWhile_eq_cons_head_false (p := pyIsSpace) (l := s.data) (by rw [← htl]; rfl)
        rw [List.dropWhile_cons, hb]
        simp
    rw [hdrop, List.rdropWhile_idempotent]
  cases hps : pyStrip (pyStrip s) with
  | mk l =>
    cases hps2 : pyStrip s with
    | mk l2 =>
      rw [hps, hps2] at hdata
      simp only [] at hdata
      rw [hdata]

/-- When every engine fails or returns a case-insensitive copy of the
query, the fallback loop produces no result. -/
theorem ttwtLoop_none (oracle : EngineOracle) (q : String) (es : List String)
    (h : ∀ e ∈ es, ∀ r, oracle e q = some r →
      pyLower (pyStrip r) = pyLower (pyStrip q)) :
    (ttwtLoop oracle q es).1 = none := by
  induction es with
  | nil => rfl
  | cons e rest ih =>
    unfold ttwtLoop
    cases ho : oracle e q with
    | none =>
      simp only []
      exact ih (fun e' he' r hr => h e' (List.mem_cons_of_mem e he') r hr)
    | some tr =>
      simp only []
      rw [if_neg (fun hc => hc.2 (h e (List.mem_cons_self e rest) tr ho))]
      exact ih (fun e' he' r hr => h e' (List.mem_cons_of_mem e he') r hr)

/-- C4. For every text given to `translate_actor_field`: empty or
whitespace-only text, text containing CJK characters, one-or-two-character
all-caps initials, and texts with a negative (null) translation-cache
entry are returned unchanged with no engine (AI or fallback) invocation;
otherwise, when every engine fails or returns a result equal
case-insensitively to the input, a negative cache entry
`(text, null, "failed_or_same_via_<engine>")` is stored and the original
text returned. -/
theorem translate_actor_field_claim (cache : TransCache) (aiPresent : Bool)
    (aiProvider : String) (aiTranslate : String → Option String)
    (translator_engines : List String) (ai_enabled : Bool) (libAvail : Bool)
    (oracle : EngineOracle) :
    (translate_actor_field cache aiPresent aiProvider aiTranslate
        translator_engines ai_enabled libAvail oracle none = ⟨none, cache, 0⟩) ∧
    (∀ s, pyStrip s = "" ∨ contains_chinese s = true →
      translate_actor_field cache aiPresent aiProvider aiTranslate
        translator_engines ai_enabled libAvail oracle (some s) = ⟨some s, cache, 0⟩) ∧
    (∀ s, (pyStrip s).length ≤ 2 → pyIsUpper (pyStrip s) = true →
      translate_actor_field cache aiPresent aiProvider aiTranslate
        translator_engines ai_enabled libAvail oracle (some s) = ⟨some s, cache, 0⟩) ∧
    (∀ s entry, cacheGet cache (pyStrip s) = some entry →
      entry.translated_text = none →
      translate_actor_field cache aiPresent aiProvider aiTranslate
        translator_engines ai_enabled libAvail oracle (some s) = ⟨some s, cache, 0⟩) ∧
    (∀ s, pyStrip s ≠ "" → contains_chinese s = false →
      ¬((pyStrip s).length ≤ 2 ∧ pyIsUpper (pyStrip s) = true) →
      cacheGet cache (pyStrip s) = none →
      (∀ r, aiTranslate (pyStrip s) = some r →
        pyLower (pyStrip r) = pyLower (pyStrip s)) →
      (∀ e ∈ translator_engines, ∀ r, oracle e (pyStrip s) = some r →
        pyLower (pyStrip r) = pyLower (pyStrip s)) →
      ∃ eng,
        (translate_actor_field cache aiPresent aiProvider aiTranslate
          translator_engines ai_enabled libAvail oracle (some s)).result = some s ∧
        (translate_actor_field cache aiPresent aiProvider aiTranslate
          translator_engines ai_enabled libAvail oracle (some s)).cache =
          cacheSave cache (pyStrip s) none ("failed_or_same_via_" ++ eng)) := by
  refine ⟨rfl, ?_, ?_, ?_, ?_⟩
  · intro s h
    unfold translate_actor_field
    dsimp only
    rw [if_pos ?_]
    rcases h with h | h
    · exact Or.inr (Or.inl h)
    · exact Or.inr (Or.inr h)
  · intro s hlen hup
    unfold translate_actor_field
    dsimp only
    by_cases h1 : s = "" ∨ pyStrip s = "" ∨ contains_chinese s = true
    · rw [if_pos h1]
    · rw [if_neg h1, if_pos ⟨hlen, hup⟩]
  · intro s entry hget hnull
    unfold translate_actor_field
    dsimp only
    by_cases h1 : s = "" ∨ pyStrip s = "" ∨ contains_chinese s = true
    · rw [if_pos h1]
    · rw [if_neg h1]
      by_cases h2 : (pyStrip s).length ≤ 2 ∧ pyIsUpper (pyStrip s) = true
      · rw [if_pos h2]
      · rw [if_neg h2, hget]
        simp only [hnull, optTruthy]
        rfl
  · intro s hne hcjk hinit hget hai hfb
    have honline : (translateOnline aiPresent aiProvider aiTranslate
        translator_engines ai_enabled libAvail oracle (pyStrip s)).1 = none ∨
        ∃ r, (translateOnline aiPresent aiProvider aiTranslate
          translator_engines ai_enabled libAvail oracle (pyStrip s)).1 = some r ∧
          pyLower (pyStrip r) = pyLower (pyStrip s) := by
      unfold translateOnline
      have hfbnone : (translate_text_with_translators libAvail oracle (pyStrip s)
          (some translator_engines)).1 = none := by
        unfold translate_text_with_translators
        split
        · rfl
        · rw [Option.getD_some]
          apply ttwtLoop_none
          intro e he r hr
          rw [pyStrip_idem]
          exact hfb e he r hr
      cases hb : aiPresent && ai_enabled with
      | false =>
        simp only [hb, if_false]
        rw [hfbnone]
        exact Or.inl rfl
      | true =>
        simp only [hb, if_true]
        cases har : aiTranslate (pyStrip s) with
        | none =>
          simp only []
          rw [hfbnone]
          exact Or.inl rfl
        | some r =>
          by_cases hrne : r = ""
          · subst hrne
            simp only [ne_eq, not_true_eq_false, if_false]
            rw [hfbnone]
            exact Or.inl rfl
          · simp only [ne_eq, hrne, not_false_eq_true, if_true]
            exact Or.inr ⟨r, rfl, hai r har⟩
    unfold translate_actor_field
    dsimp only
    rw [if_neg ?hguard, if_neg hinit, hget]
    case hguard =>
      rintro (h | h | h)
      · exact hne (by rw [h]; rfl)
      · exact hne h
      · rw [h] at hcjk; cases hcjk
    rcases honline with hn | ⟨r, hr, hsame⟩
    · refine ⟨(translateOnline aiPresent aiProvider aiTranslate
        translator_engines ai_enabled libAvail oracle (pyStrip s)).2.1, ?_, ?_⟩ <;>
        simp only [hn]
    · refine ⟨(translateOnline aiPresent aiProvider aiTranslate
        translator_engines ai_enabled libAvail oracle (pyStrip s)).2.1, ?_, ?_⟩ <;>
      · simp only [hr]
        rw [if_neg (fun hc => hc.2 hsame)]

/-- Witness for C4: the CJK bypass applied to a CJK name, and the
negative-cache write applied to a Latin name with every engine failing. -/
theorem translate_actor_field_claim_witness :
    (translate_actor_field [] true "ai" (fun _ => none) ["bing"] true true
        (fun _ _ => none) (some "张三") =
      ⟨some "张三", [], 0⟩) ∧
    ∃ eng,
      (translate_actor_field [] true "ai" (fun _ => none) ["bing"] true true
        (fun _ _ => none) (some "John")).result = some "John" ∧
      (translate_actor_field [] true "ai" (fun _ => none) ["bing"] true true
        (fun _ _ => none) (some "John")).cache =
        cacheSave [] (pyStrip "John") none ("failed_or_same_via_" ++ eng) :=
  ⟨(translate_actor_field_claim [] true "ai" (fun _ => none) ["bing"] true true
      (fun _ _ => none)).2.1 "张三" (Or.inr (by decide)),
   (translate_actor_field_claim [] true "ai" (fun _ => none) ["bing"] true true
      (fun _ _ => none)).2.2.2.2 "John" (by decide) (by decide) (by decide) rfl
      (fun r hr => by cases hr) (fun e _ r hr => by cases hr)⟩

/-! ### Claim C6: the quality score -/

/-- The claim's reading of the count-penalty chain, written as the spec
sentence reads: an `elif` chain in which the original-count penalty also
applies when `expected_final_count` is given but its own condition
fails. -/
def claimPenaltyChain (total : Nat) (original_cast_count : Nat)
    (expected_final_count : Option Nat) (is_animation : Bool) : ℚ :=
  if is_animation then 1
  else if total < 10 then (total : ℚ) / 10
  else if _h : expected_final_count.isSome ∧
      (total : ℚ) < (expected_final_count.getD 0 : ℚ) * (4/5) then
    (total : ℚ) / (expected_final_count.getD 0 : ℚ)
  else if (total : ℚ) < (original_cast_count : ℚ) * (4/5) then
    (total : ℚ) / (original_cast_count : ℚ)
  else 1

/-- The quality score as the C6 claim describes it: per-actor scores
averaged, multiplied by the claim's penalty chain, rounded to one
decimal. -/
def claimC6Score (final_cast : List CastEntry) (original_cast_count : Nat)
    (expected_final_count : Option Nat) (is_animation : Bool) : ℚ :=
  if final_cast = [] then (if is_animation then 7 else 0)
  else
    round1 (((final_cast.map actorScore).sum / final_cast.length) *
      claimPenaltyChain final_cast.length original_cast_count
        expected_final_count is_animation)

/-- The concrete cast of the C6 counterexample: 25 actors with meaningful
CJK names and roles. -/
def castC6 : List CastEntry := List.replicate 25 ⟨"张", "王"⟩

/-- Rounding a one-decimal rational to one decimal is the identity. -/
theorem round1_tenth (n : ℤ) : round1 ((n : ℚ) / 10) = (n : ℚ) / 10 := by
  unfold round1 roundHalfEven
  have h1 : ((n : ℚ) / 10) * 10 = (n : ℚ) := by
    field_simp
  rw [h1]
  rw [Int.floor_intCast]
  rw [if_pos (by norm_num)]

theorem round1_int (n : ℤ) : round1 (n : ℚ) = (n : ℚ) := by
  have := round1_tenth (10 * n)
  rw [show (((10 * n : ℤ) : ℚ) / 10) = (n : ℚ) by push_cast; ring] at this
  rw [this]

theorem actorScore_cjk : actorScore ⟨"张", "王"⟩ = 10 := by
  unfold actorScore
  dsimp only
  rw [if_pos (by decide), if_pos (by decide)]
  norm_num

theorem castC6_sum : (castC6.map actorScore).sum = 250 := by
  unfold castC6
  rw [List.map_replicate, actorScore_cjk, List.sum_replicate]
  norm_num

/-- The corrected penalty chain: the original-count penalty applies only
when `expected_final_count` is not given, mirroring the nested `if` of
the source. -/
def amendedPenaltyChain (total : Nat) (original_cast_count : Nat)
    (expected_final_count : Option Nat) (is_animation : Bool) : ℚ :=
  if is_animation then 1
  else if total < 10 then (total : ℚ) / 10
  else
    match expected_final_count with
    | some expected =>
      if (total : ℚ) < (expected : ℚ) * (4/5) then (total : ℚ) / (expected : ℚ) else 1
    | none =>
      if (total : ℚ) < (original_cast_count : ℚ) * (4/5) then
        (total : ℚ) / (original_cast_count : ℚ)
      else 1

/-- Shared computation: the code's score equals the spec-shaped score with
the corrected penalty chain. -/
theorem evaluate_quality_eq_amended_form (final_cast : List CastEntry)
    (original_cast_count : Nat) (expected_final_count : Option Nat)
    (is_animation : Bool) :
    evaluate_cast_processing_quality final_cast original_cast_count
        expected_final_count is_animation =
      if final_cast = [] then (if is_animation then 7 else 0)
      else
        round1 (((final_cast.map actorScore).sum / final_cast.length) *
          amendedPenaltyChain final_cast.length original_cast_count
            expected_final_count is_animation) := by
  unfold evaluate_cast_processing_quality amendedPenaltyChain
  by_cases hnil : final_cast = []
  · rw [if_pos hnil, if_pos hnil]
  · rw [if_neg hnil, if_neg hnil]
    have hsum : final_cast.foldl (fun acc a => acc + actorScore a) 0 =
        (final_cast.map actorScore).sum := by
      rw [← List.foldl_map, List.sum_eq_foldl]
    rw [hsum]
    by_cases hanim : is_animation
    · simp [hanim]
    · simp only [hanim, if_false, Bool.false_eq_true]
      by_cases hlt : final_cast.length < 10
      · rw [if_pos hlt, if_pos hlt]
      · rw [if_neg hlt, if_neg hlt]
        cases expected_final_count with
        | some expected =>
          dsimp only
          by_cases he : (final_cast.length : ℚ) < (expected : ℚ) * (4/5)
          · rw [if_pos he, if_pos he]
          · rw [if_neg he, if_neg he, mul_one]
        | none =>
          dsimp only
          by_cases ho : (final_cast.length : ℚ) < (original_cast_count : ℚ) * (4/5)
          · rw [if_pos ho, if_pos ho]
          · rw [if_neg ho, if_neg ho, mul_one]

/-- Counterexample to C6. With 25 actors of per-actor score 10, original
count 100 and expected count 25, the claim's elif chain applies the
original-count penalty (score 2.5), but the code skips every penalty as
soon as `expected_final_count` is given (score 10.0): the code disagrees
with the claim at this input. -/
theorem evaluate_quality_claim_counterexample :
    evaluate_cast_processing_quality castC6 100 (some 25) false = 10 ∧
    claimC6Score castC6 100 (some 25) false = 5/2 ∧
    evaluate_cast_processing_quality castC6 100 (some 25) false ≠
      claimC6Score castC6 100 (some 25) false := by
  have hlen : castC6.length = 25 := by decide
  have hcode : evaluate_cast_processing_quality castC6 100 (some 25) false = 10 := by
    rw [evaluate_quality_eq_amended_form]
    rw [if_neg (by decide)]
    rw [castC6_sum, hlen]
    unfold amendedPenaltyChain
    rw [if_neg (by decide), if_neg (by decide)]
    dsimp only
    rw [if_neg (by push_cast; norm_num)]
    rw [show ((250 : ℚ) / (25 : ℕ) * 1) = ((10 : ℤ) : ℚ) by norm_num]
    rw [round1_int]
    norm_num
  have hclaim : claimC6Score castC6 100 (some 25) false = 5/2 := by
    unfold claimC6Score claimPenaltyChain
    rw [if_neg (by decide)]
    rw [castC6_sum, hlen]
    rw [if_neg (by decide), if_neg (by decide)]
    rw [dif_neg (by norm_num)]
    rw [if_pos (by norm_num)]
    rw [show ((250 : ℚ) / (25 : ℕ) * ((25 : ℕ) / (100 : ℕ))) =
      ((25 : ℤ) : ℚ) / 10 by push_cast; norm_num]
    rw [round1_tenth]
    norm_num
  exact ⟨hcode, hclaim, by rw [hcode, hclaim]; norm_num⟩

/-- C6 (amended). The quality score gives each actor 0/1/5 points for an
empty/Latin/CJK name and 0/0.5/2.5/5 points for an
empty/Latin/CJK-placeholder/CJK-meaningful role, averages across actors,
and applies the count-penalty chain in which the original-count penalty is
reached only when no expected count is given (if final<10; elif an
expected count is given, penalize only when final<0.8·expected; elif
final<0.8·original); the result is rounded to one decimal; an empty cast
yields 7.0 when is_animation and 0.0 otherwise. -/
theorem evaluate_quality_claim_amended (final_cast : List CastEntry)
    (original_cast_count : Nat) (expected_final_count : Option Nat)
    (is_animation : Bool) :
    evaluate_cast_processing_quality final_cast original_cast_count
        expected_final_count is_animation =
      if final_cast = [] then (if is_animation then 7 else 0)
      else
        round1 (((final_cast.map actorScore).sum / final_cast.length) *
          amendedPenaltyChain final_cast.length original_cast_count
            expected_final_count is_animation) :=
  evaluate_quality_eq_amended_form final_cast original_cast_count
    expected_final_count is_animation

/-! ### Claim C7: the animation flag and the role formatting -/

theorem antiCollideAux_character (p : List String) (l : List SAActor) :
    ∀ x ∈ antiCollideAux p l, ∃ y ∈ l, x.character = y.character := by
  induction l generalizing p with
  | nil => intro x hx; simp [antiCollideAux] at hx
  | cons a rest ih =>
    intro x hx
    unfold antiCollideAux at hx
    by_cases h : a.name = ""
    · rw [if_pos h] at hx
      rcases List.mem_cons.mp hx with hx | hx
      · exact ⟨a, List.mem_cons_self a rest, by rw [hx]⟩
      · obtain ⟨y, hy, hc⟩ := ih p x hx
        exact ⟨y, List.mem_cons_of_mem a hy, hc⟩
    · rw [if_neg h] at hx
      rcases List.mem_cons.mp hx with hx | hx
      · exact ⟨a, List.mem_cons_self a rest, by rw [hx]⟩
      · obtain ⟨y, hy, hc⟩ := ih _ x hx
        exact ⟨y, List.mem_cons_of_mem a hy, hc⟩

theorem format_cast_character_provenance (cast : List SAActor) (anim flag : Bool)
    (a : SAActor) (ha : a ∈ format_and_complete_cast_list cast anim flag) :
    ∃ b ∈ cast, a.character = formatRole flag anim b.character := by
  unfold format_and_complete_cast_list at ha
  obtain ⟨ia, hia, hEq⟩ := List.mem_map.mp ha
  have hchar1 : a.character = ia.2.character := by rw [← hEq]
  have h2 := List.snd_mem_of_mem_enum hia
  have h3 := (List.mergeSort_perm _ finalSortLe).subset h2
  obtain ⟨jb, hjb, hEq2⟩ := List.mem_map.mp h3
  have hchar2 : ia.2.character = formatRole flag anim jb.2.character := by
    rw [← hEq2]
  have h4 := List.snd_mem_of_mem_enum hjb
  obtain ⟨y, hy, hc⟩ := antiCollideAux_character [] _ jb.2 h4
  have hycast : y ∈ cast :=
    (List.mergeSort_perm cast (fun a b => a.order.getD 999 ≤ b.order.getD 999)).subset hy
  exact ⟨y, hycast, by rw [hchar1, hchar2, hc]⟩

theorem generic_contains_iff (s : String) :
    generic_roles.contains s = true ↔ s ∈ generic_roles := by
  simp [generic_roles]

/-- C7, counterexample: the genre test of `_process_item_core_logic` does
not look for "动漫" — a genre list containing only "动漫" satisfies the
claim's condition yet `is_animation` is computed as `false`. -/
theorem animation_role_claim_counterexample :
    ("Animation" ∈ (["动漫"] : List String) ∨ "动画" ∈ (["动漫"] : List String) ∨
      "动漫" ∈ (["动漫"] : List String)) ∧ isAnimationSA ["动漫"] = false := by
  constructor
  · right; right; exact List.mem_cons_self _ _
  · rfl

/-- C7 (amended): `is_animation` is true exactly when the genre list
contains "Animation" or "动画" (the source does not test "动漫"); in the
formatting loop a record whose cleaned role is empty receives "配音" when
animation and "演员" otherwise; with the role-prefix option on, a
non-empty, non-generic cleaned role is prepended with "配 " (animation) or
"饰 " (otherwise); and every record produced by
`format_and_complete_cast_list` carries the formatted role of some input
record. -/
theorem animation_role_claim_amended :
    (∀ genres : List String,
        isAnimationSA genres = true ↔ ("Animation" ∈ genres ∨ "动画" ∈ genres)) ∧
    (∀ (flag anim : Bool) (c : String), roleCore c = "" →
        formatRole flag anim c = (if anim then "配音" else "演员")) ∧
    (∀ (anim : Bool) (c : String), roleCore c ≠ "" → roleCore c ∉ generic_roles →
        formatRole true anim c = (if anim then "配 " else "饰 ") ++ roleCore c) ∧
    (∀ (cast : List SAActor) (anim flag : Bool) (a : SAActor),
        a ∈ format_and_complete_cast_list cast anim flag →
        ∃ b ∈ cast, a.character = formatRole flag anim b.character) := by
  refine ⟨?_, ?_, ?_, format_cast_character_provenance⟩
  · intro genres
    simp [isAnimationSA]
  · intro flag anim c h
    cases flag <;> cases anim <;> simp [formatRole, h]
  · intro anim c h1 h2
    have h2' : generic_roles.contains (roleCore c) = false := by
      cases hc : generic_roles.contains (roleCore c)
      · rfl
      · exact absurd ((generic_contains_iff _).mp hc) h2
    unfold formatRole
    rw [if_pos rfl, if_pos ⟨h1, by rw [h2']; exact Bool.false_ne_true⟩]

/-- Concrete input cast for the C7 witness. -/
def castW7 : List SAActor := [{ name := "甲", character := "张 三", order := some 0 }]

/-- Concrete output record for the C7 witness. -/
def aW7 : SAActor := { name := "甲", character := "配 张三", order := some 0 }

theorem formatW7_eval : format_and_complete_cast_list castW7 true true = [aW7] := by
  simp only [format_and_complete_cast_list]
  rw [show castW7.mergeSort (fun a b => a.order.getD 999 ≤ b.order.getD 999) = castW7 from
        List.perm_singleton.mp (List.mergeSort_perm _ _),
      show ((antiCollideAux [] castW7).enum.map (fun ia =>
          { ia.2 with character := formatRole true true ia.2.character,
                      order := some (ia.1 : Int) })) = [aW7] from by decide,
      show [aW7].mergeSort finalSortLe = [aW7] from
        List.perm_singleton.mp (List.mergeSort_perm _ _)]
  decide

theorem animation_role_claim_amended_witness :
    (roleCore "张 三" ≠ "" ∧ roleCore "张 三" ∉ generic_roles ∧
      formatRole true true "张 三" = "配 " ++ roleCore "张 三") ∧
    (roleCore " " = "" ∧
      formatRole false false " " = (if (false : Bool) then "配音" else "演员")) ∧
    (aW7 ∈ format_and_complete_cast_list castW7 true true ∧
      ∃ b ∈ castW7, aW7.character = formatRole true true b.character) := by
  refine ⟨⟨by decide, by decide,
      animation_role_claim_amended.2.2.1 true "张 三" (by decide) (by decide)⟩,
    ⟨by decide, animation_role_claim_amended.2.1 false false " " (by decide)⟩,
    by rw [formatW7_eval]; exact List.mem_singleton_self aW7,
    animation_role_claim_amended.2.2.2 castW7 true true aW7
      (by rw [formatW7_eval]; exact List.mem_singleton_self aW7)⟩

/-! ### Claim C5: the two result logs -/

/-- A log state in which item "I1" already sits in the processed log, as
after an earlier successful run. -/
def stC5 : LogState := ⟨[("I1", ⟨"Movie", some 10⟩)], []⟩

/-- C5, counterexample: a below-threshold attempt on an item already in
the processed log REPLACEs it into the failed log but never deletes the
processed row, so afterwards the item sits in both logs. -/
theorem log_exclusion_claim_counterexample :
    "I1" ∈ ((recordAttemptOutcome stC5 "I1" "Movie" "movie" 5 6 "低分").processed.map
        Prod.fst) ∧
    "I1" ∈ ((recordAttemptOutcome stC5 "I1" "Movie" "movie" 5 6 "低分").failed.map
        Prod.fst) := by
  rw [recordAttemptOutcome, if_pos (by norm_num : (5 : ℚ) < 6)]
  constructor
  · simp [save_to_failed_log, stC5]
  · simp [save_to_failed_log, replaceInto]

/-- C5 (amended): a successful (not below-threshold) attempt leaves the
item in the processed log and not in the failed log; a below-threshold
attempt leaves it in the failed log and leaves the processed log exactly
as it was (so an item previously processed stays in both logs). -/
theorem log_exclusion_claim_amended (st : LogState)
    (item_id item_name item_type : String) (score min_score : ℚ) (msg : String) :
    (¬ score < min_score →
      item_id ∈ ((recordAttemptOutcome st item_id item_name item_type score min_score
          msg).processed.map Prod.fst) ∧
      item_id ∉ ((recordAttemptOutcome st item_id item_name item_type score min_score
          msg).failed.map Prod.fst)) ∧
    (score < min_score →
      item_id ∈ ((recordAttemptOutcome st item_id item_name item_type score min_score
          msg).failed.map Prod.fst) ∧
      (recordAttemptOutcome st item_id item_name item_type score min_score
          msg).processed = st.processed) := by
  constructor
  · intro h
    rw [recordAttemptOutcome, if_neg h]
    constructor
    · simp [remove_from_failed_log, save_to_processed_log, replaceInto]
    · simp [remove_from_failed_log, save_to_processed_log, List.mem_filter]
  · intro h
    rw [recordAttemptOutcome, if_pos h]
    exact ⟨by simp [save_to_failed_log, replaceInto], rfl⟩

theorem log_exclusion_claim_amended_witness :
    ("I1" ∈ ((recordAttemptOutcome stC5 "I1" "M" "movie" 8 6 "m").processed.map
        Prod.fst) ∧
     "I1" ∉ ((recordAttemptOutcome stC5 "I1" "M" "movie" 8 6 "m").failed.map
        Prod.fst)) ∧
    ("I2" ∈ ((recordAttemptOutcome stC5 "I2" "M" "movie" 5 6 "m").failed.map
        Prod.fst) ∧
     (recordAttemptOutcome stC5 "I2" "M" "movie" 5 6 "m").processed = stC5.processed) :=
  ⟨(log_exclusion_claim_amended stC5 "I1" "M" "movie" 8 6 "m").1 (by norm_num),
   (log_exclusion_claim_amended stC5 "I2" "M" "movie" 5 6 "m").2 (by norm_num)⟩

/-! ### Claim C3: the truncation bound of the cast processor -/

theorem mapAssign_length (m : CastMap) (k : String) (v : SAActor) :
    (mapAssign m k v).length ≤ m.length + 1 := by
  unfold mapAssign
  split
  · simp
  · simp

theorem countP_split (p : SAActor → Bool) (l : List SAActor) :
    l.countP p + l.countP (fun a => !p a) = l.length := by
  induction l with
  | nil => simp
  | cons a rest ih =>
    rw [List.countP_cons, List.countP_cons]
    cases hp : p a <;> simp [hp] <;> omega

theorem foldl_length_le (f : CastMap → SAActor → CastMap) (p : SAActor → Bool)
    (h1 : ∀ m a, p a = true → (f m a).length ≤ m.length + 1)
    (h2 : ∀ m a, p a = false → f m a = m) :
    ∀ (l : List SAActor) (m : CastMap), (l.foldl f m).length ≤ m.length + l.countP p := by
  intro l
  induction l with
  | nil => intro m; simp
  | cons a rest ih =>
    intro m
    rw [List.foldl_cons, List.countP_cons]
    cases hp : p a
    · rw [h2 m a hp]
      have := ih m
      simp [hp]
      omega
    · have hh := h1 m a hp
      have := ih (f m a)
      simp [hp]
      omega

theorem buildInitialMap_length (l : List SAActor) :
    (buildInitialMap l).length ≤ l.length := by
  have hA := foldl_length_le
    (fun m a => if optTruthy a.id then mapAssign m (a.id.getD "") a else m)
    (fun a => optTruthy a.id)
    (fun m a hp => by
      dsimp only at hp ⊢
      rw [if_pos hp]
      exact mapAssign_length m (a.id.getD "") a)
    (fun m a hp => by
      dsimp only at hp ⊢
      rw [if_neg (by simp [hp])])
    l []
  have hB := foldl_length_le
    (fun m a =>
      if optTruthy a.id then m
      else
        let k := "name_" ++ pyLower a.name
        if m.any (fun kv => kv.1 == k) then m else m ++ [(k, a)])
    (fun a => !optTruthy a.id)
    (fun m a hp => by
      dsimp only at hp ⊢
      have hp' : optTruthy a.id = false := by simpa using hp
      rw [if_neg (by simp [hp'])]
      split
      · omega
      · simp)
    (fun m a hp => by
      dsimp only at hp ⊢
      have hp' : optTruthy a.id = true := by simpa using hp
      rw [if_pos hp'])
    l (l.foldl (fun m a => if optTruthy a.id then mapAssign m (a.id.getD "") a else m) [])
  have hC : l.countP (fun a => optTruthy a.id) + l.countP (fun a => !optTruthy a.id)
      = l.length := countP_split (fun a => optTruthy a.id) l
  simp only [List.length_nil] at hA
  exact le_trans hB (by omega)

theorem foldl_fst_const {α β γ : Type} (f : β × γ → α → β × γ)
    (hf : ∀ acc a, (f acc a).1 = acc.1) :
    ∀ (l : List α) (acc : β × γ), (l.foldl f acc).1 = acc.1 := by
  intro l
  induction l with
  | nil => intro acc; rfl
  | cons a rest ih => intro acc; rw [List.foldl_cons, ih, hf]

theorem foldl_fst_length {α β γ : Type} (f : List β × γ → α → List β × γ)
    (hf : ∀ acc a, ((f acc a).1).length = acc.1.length) :
    ∀ (l : List α) (acc : List β × γ), ((l.foldl f acc).1).length = acc.1.length := by
  intro l
  induction l with
  | nil => intro acc; rfl
  | cons a rest ih => intro acc; rw [List.foldl_cons, ih, hf]

theorem updateFirstMatch_length (d : DoubanCand) :
    ∀ (m m' : CastMap), updateFirstMatch d m = some m' → m'.length = m.length := by
  intro m
  induction m with
  | nil => intro m' h; simp [updateFirstMatch] at h
  | cons kv rest ih =>
    intro m' h
    rw [updateFirstMatch] at h
    split at h
    · injection h with h
      subst h
      rfl
    · cases hu : updateFirstMatch d rest with
      | none => rw [hu] at h; simp at h
      | some r =>
        rw [hu] at h
        dsimp only [Option.map] at h
        injection h with h
        subst h
        simp [ih r hu]

theorem phase1_fst_length (cands : List DoubanCand) (m : CastMap) :
    (phase1 cands m).1.length = m.length := by
  unfold phase1
  refine foldl_fst_length _ ?_ cands (m, [])
  intro acc d
  dsimp only
  cases hu : updateFirstMatch d acc.1 with
  | none => rfl
  | some m' => exact updateFirstMatch_length d acc.1 m' hu

theorem phase2_fst (t : PersonTable) (m : CastMap) (u : List DoubanCand) :
    (phase2 t m u).1 = m := by
  unfold phase2
  refine foldl_fst_const _ ?_ u (m, [])
  intro acc d
  rfl

theorem intermediateCast_length (t : PersonTable) (cfgMax : Option Int)
    (l : List SAActor) (dr : List DoubanRaw) :
    (intermediateCast t cfgMax l dr).length ≤ l.length := by
  simp only [intermediateCast, assembledMap]
  rw [List.length_map]
  split
  · rw [phase1_fst_length]
    exact buildInitialMap_length l
  · rw [phase2_fst, phase1_fst_length]
    exact buildInitialMap_length l

theorem normLimit_pos (cfgMax : Option Int) : 0 < normLimit cfgMax := by
  unfold normLimit
  cases cfgMax with
  | none => dsimp only; omega
  | some v => dsimp only; split <;> omega

theorem truncateCast_length (L : Int) (hL : 0 ≤ L) (l : List SAActor) :
    (truncateCast L l).length ≤ min l.length L.toNat := by
  unfold truncateCast
  split_ifs with h
  · rw [List.length_take, List.length_mergeSort]
    omega
  · omega

/-- C3: the processor's returned cast has at most `min(N, L)` records for
an input of length N and a configured limit L (default 30), and when the
intermediate list exceeds L the kept list is the first L records of the
intermediate list sorted ascending by `order` with null or negative
orders treated as 999. -/
theorem cast_truncation_claim (now : Nat) (t : PersonTable) (cache : TransCache)
    (cfgMax : Option Int) (aiEnabled : Bool) (aiProvider : String)
    (aiBatch : List String → Option (List (String × String)))
    (local_cast_list : List SAActor) (douban_raw : List DoubanRaw) :
    (∀ out, (process_cast_list_from_local now t cache cfgMax aiEnabled aiProvider aiBatch
          local_cast_list douban_raw).cast = some out →
        out.length ≤ min local_cast_list.length (normLimit cfgMax).toNat) ∧
    (((intermediateCast t cfgMax local_cast_list douban_raw).length : Int) >
        normLimit cfgMax →
      List.Pairwise (fun a b => truncOrderKey a ≤ truncOrderKey b)
        (truncateCast (normLimit cfgMax)
          (intermediateCast t cfgMax local_cast_list douban_raw)) ∧
      (truncateCast (normLimit cfgMax)
          (intermediateCast t cfgMax local_cast_list douban_raw)).length
        = (normLimit cfgMax).toNat ∧
      (truncateCast (normLimit cfgMax)
          (intermediateCast t cfgMax local_cast_list douban_raw)).Subperm
        (intermediateCast t cfgMax local_cast_list douban_raw)) := by
  constructor
  · intro out hout
    have hb : (truncateCast (normLimit cfgMax)
        (intermediateCast t cfgMax local_cast_list douban_raw)).length ≤
        min local_cast_list.length (normLimit cfgMax).toNat :=
      le_trans (truncateCast_length _ (le_of_lt (normLimit_pos cfgMax)) _)
        (min_le_min (intermediateCast_length t cfgMax local_cast_list douban_raw)
          (le_refl _))
    simp only [process_cast_list_from_local] at hout
    split at hout
    · split at hout
      · dsimp only at hout
        injection hout with h
        subst h
        simpa only [backfillTranslations, List.length_map] using hb
      · split at hout
        · dsimp only at hout
          injection hout with h
          subst h
          simp
        · dsimp only at hout
          exact Option.noConfusion hout
    · split at hout
      · dsimp only at hout
        injection hout with h
        subst h
        simp
      · dsimp only at hout
        exact Option.noConfusion hout
  · intro h
    have heq : truncateCast (normLimit cfgMax)
        (intermediateCast t cfgMax local_cast_list douban_raw) =
        ((intermediateCast t cfgMax local_cast_list douban_raw).mergeSort
          (fun a b => truncOrderKey a ≤ truncOrderKey b)).take (normLimit cfgMax).toNat := by
      unfold truncateCast
      rw [if_pos h]
    refine ⟨?_, ?_, ?_⟩
    · rw [heq]
      have hpw : List.Pairwise
          (fun a b => (decide (truncOrderKey a ≤ truncOrderKey b)) = true)
          ((intermediateCast t cfgMax local_cast_list douban_raw).mergeSort
            (fun a b => truncOrderKey a ≤ truncOrderKey b)) :=
        List.sorted_mergeSort
          (by intro x y z hxy hyz; simp only [decide_eq_true_eq] at *; omega)
          (by intro x y; simp only [Bool.or_eq_true, decide_eq_true_eq]; omega)
          (intermediateCast t cfgMax local_cast_list douban_raw)
      exact (hpw.sublist (List.take_sublist _ _)).imp fun hxy => of_decide_eq_true hxy
    · rw [heq, List.length_take, List.length_mergeSort]
      have hp := normLimit_pos cfgMax
      omega
    · rw [heq]
      exact ((List.take_sublist _ _).subperm).trans (List.mergeSort_perm _ _).subperm

/-- Concrete single-actor input for the C3 witness (no truncation). -/
def castW3a : List SAActor := [{ id := some "1", name := "张三", character := "李四" }]

/-- Concrete three-actor input for the C3 witness (limit 2 exceeded). -/
def castW3b : List SAActor :=
  [{ id := some "1", name := "张三", character := "李四" },
   { id := some "2", name := "王五", character := "赵六" },
   { id := some "3", name := "钱七", character := "孙八" }]

theorem cast_truncation_claim_witness :
    ((process_cast_list_from_local 0 ⟨[], 1⟩ [] none true "p" (fun _ => none)
        castW3a []).cast = some castW3a ∧
      castW3a.length ≤ min castW3a.length (normLimit none).toNat) ∧
    (((intermediateCast ⟨[], 1⟩ (some 2) castW3b []).length : Int) > normLimit (some 2) ∧
      (truncateCast (normLimit (some 2))
          (intermediateCast ⟨[], 1⟩ (some 2) castW3b [])).length
        = (normLimit (some 2)).toNat) :=
  ⟨⟨by decide,
    (cast_truncation_claim 0 ⟨[], 1⟩ [] none true "p" (fun _ => none) castW3a []).1
      castW3a (by decide)⟩,
   by decide,
   ((cast_truncation_claim 0 ⟨[], 1⟩ [] (some 2) true "p" (fun _ => none)
       castW3b []).2 (by decide)).2.1⟩

/-! ### Claim C9: the enricher batch commit -/

theorem filter_eq_singleton {α : Type} {l : List α} {p : α → Bool} {a : α}
    (hnd : l.Nodup) (ha : a ∈ l) (hpa : p a = true)
    (honly : ∀ x ∈ l, p x = true → x = a) : l.filter p = [a] := by
  induction l with
  | nil => simp at ha
  | cons b rest ih =>
    rw [List.nodup_cons] at hnd
    rcases List.mem_cons.mp ha with rfl | hmem
    · rw [List.filter_cons_of_pos hpa]
      have : rest.filter p = [] := by
        apply List.filter_eq_nil_iff.mpr
        intro x hx hpx
        exact hnd.1 ((honly x (List.mem_cons_of_mem _ hx) hpx) ▸ hx)
      rw [this]
    · have hb : p b = false := by
        cases hpb : p b
        · rfl
        · exact absurd ((honly b (List.mem_cons_self b rest) hpb) ▸ hmem) hnd.1
      rw [List.filter_cons_of_neg (by simp [hb])]
      exact ih hnd.2 hmem (fun x hx hpx => honly x (List.mem_cons_of_mem b hx) hpx)

theorem row_eq_of_map_id {t : PersonTable}
    (hnd : (t.rows.map PersonRow.map_id).Nodup) {r1 r2 : PersonRow}
    (h1 : r1 ∈ t.rows) (h2 : r2 ∈ t.rows) (h : r1.map_id = r2.map_id) : r1 = r2 :=
  List.inj_on_of_nodup_map hnd h1 h2 h

/-- The normalized candidate of one enricher IMDb update. -/
theorem enrichNorm (tid i : String) (hst : pyStrip tid = tid) (hsi : pyStrip i = i)
    (htid : tid ≠ "") (hi : i ≠ "") :
    normalizeData { tmdb_id := some tid, imdb_id := some i } =
      ⟨"", none, some tid, some i, none⟩ := by
  have h0 : pyStrip "" = "" := by decide
  simp [normalizeData, normIdValue, h0, hst, hsi, htid, hi]

theorem enrichProvided (tid i : String) :
    providedIds ⟨"", none, some tid, some i, none⟩ = [(.tmdb, tid), (.imdb, i)] := rfl

theorem enrichMerge_eq (r : PersonRow) (tid i : String)
    (hrt : r.tmdb_person_id = some tid) (hri : r.imdb_id = none) (hi : i ≠ "") :
    mergeAllSources ⟨"", none, some tid, some i, none⟩ r [] =
      { r with imdb_id := some i } := by
  simp [mergeAllSources, mergeOneSource, id_fields, NormData.getId, optTruthy,
    PersonRow.getId, PersonRow.setId, hrt, hri, hi]

/-- One enricher IMDb upsert: with a unique TMDb match whose IMDb is null
and a fresh IMDb value, branch A fires on exactly that row and rewrites it
in place. -/
theorem enrichUpsert_found (now : Nat) (t : PersonTable) (tid i : String)
    (hwf : TableWF t) (hu : UniqueIds t) (r : PersonRow) (hr : r ∈ t.rows)
    (hrt : r.tmdb_person_id = some tid) (hri : r.imdb_id = none)
    (hst : pyStrip tid = tid) (hsi : pyStrip i = i)
    (htid : tid ≠ "") (hi : i ≠ "")
    (hfresh : ∀ r' ∈ t.rows, r'.imdb_id ≠ some i) :
    (upsert_person now t { tmdb_id := some tid, imdb_id := some i }).2 =
      { t with rows := t.rows.map (fun r' =>
          if r'.map_id = r.map_id then
            { r with imdb_id := some i, last_updated_at := some now } else r') } := by
  have hnd := enrichNorm tid i hst hsi htid hi
  have hmatch : ∀ r' ∈ t.rows,
      rowMatchesProvided (providedIds ⟨"", none, some tid, some i, none⟩) r' = true →
        r' = r := by
    intro r' hr' hm
    rw [enrichProvided] at hm
    simp [rowMatchesProvided, PersonRow.getId] at hm
    rcases hm with hm | hm
    · exact hu .tmdb tid htid r' hr' r hr hm hrt
    · exact absurd hm (hfresh r' hr')
  have hrmatch :
      rowMatchesProvided (providedIds ⟨"", none, some tid, some i, none⟩) r = true := by
    rw [enrichProvided]
    simp [rowMatchesProvided, PersonRow.getId, hrt]
  have hfilter : t.rows.filter
      (rowMatchesProvided (providedIds ⟨"", none, some tid, some i, none⟩)) = [r] :=
    filter_eq_singleton (hwf.nodup.of_map) hr hrmatch hmatch
  have hhits : idBasedMatches t ⟨"", none, some tid, some i, none⟩ = [r] := by
    rw [idBasedMatches_eq_filter t _ hwf.nodup, hfilter]
  have hAne : idBasedMatches t (normalizeData { tmdb_id := some tid, imdb_id := some i })
      ≠ [] := by
    rw [hnd, hhits]
    simp
  rw [upsert_person_branchA now t _ hAne]
  have hsort : (idBasedMatches t
      (normalizeData { tmdb_id := some tid, imdb_id := some i })).mergeSort mapIdLe
      = [r] := by
    rw [hnd, hhits]
    exact List.perm_singleton.mp (List.mergeSort_perm _ _)
  have hprim : branchAPrimary t (normalizeData { tmdb_id := some tid, imdb_id := some i })
      = r := by
    unfold branchAPrimary
    rw [hsort]
    rfl
  have hoth : branchAOthers t (normalizeData { tmdb_id := some tid, imdb_id := some i })
      = [] := by
    unfold branchAOthers
    rw [hsort]
    rfl
  have hupd : branchAUpdated now t (normalizeData { tmdb_id := some tid, imdb_id := some i })
      = { r with imdb_id := some i, last_updated_at := some now } := by
    unfold branchAUpdated
    rw [hprim, hoth, hnd, enrichMerge_eq r tid i hrt hri hi]
  dsimp only
  congr 1
  unfold branchARows
  rw [hoth, hprim, hupd]
  simp

/-- The per-row effect of committing a batch's IMDb updates: the row whose
TMDb id carries an update gets that IMDb id and the timestamp, every
other row is untouched. -/
def enrichApply (now : Nat) (updates : List (String × String)) (r : PersonRow) :
    PersonRow :=
  match updates.find? (fun ui => r.tmdb_person_id == some ui.1) with
  | some ui => { r with imdb_id := some ui.2, last_updated_at := some now }
  | none => r

theorem enrichFold_eq (now : Nat) :
    ∀ (updates : List (String × String)) (t : PersonTable),
    TableWF t → UniqueIds t →
    ((updates.map Prod.fst).Nodup) →
    ((updates.map Prod.snd).Nodup) →
    (∀ ui ∈ updates, pyStrip ui.1 = ui.1 ∧ ui.1 ≠ "" ∧ pyStrip ui.2 = ui.2 ∧ ui.2 ≠ "") →
    (∀ ui ∈ updates, ∃ r ∈ t.rows, r.tmdb_person_id = some ui.1 ∧ r.imdb_id = none) →
    (∀ ui ∈ updates, ∀ r ∈ t.rows, r.imdb_id ≠ some ui.2) →
    updates.foldl (fun t ui =>
        (upsert_person now t { tmdb_id := some ui.1, imdb_id := some ui.2 }).2) t =
      { t with rows := t.rows.map (enrichApply now updates) } := by
  intro updates
  induction updates with
  | nil =>
    intro t _ _ _ _ _ _ _
    rw [List.foldl_nil]
    have : t.rows.map (enrichApply now []) = t.rows := by
      rw [List.map_congr_left (fun x _ => rfl : ∀ x ∈ t.rows, enrichApply now [] x = id x)]
      exact List.map_id t.rows
    rw [this]
  | cons ui rest ih =>
    intro t hwf hu hndf hndi hclean hexists hfresh
    obtain ⟨r, hr, hrt, hri⟩ := hexists ui (List.mem_cons_self ui rest)
    obtain ⟨hst, htid, hsi, hi⟩ := hclean ui (List.mem_cons_self ui rest)
    rw [List.map_cons, List.nodup_cons] at hndf hndi
    have hpres := upsert_preserves now t
      { tmdb_id := some ui.1, imdb_id := some ui.2 } hwf hu
    have hstep := enrichUpsert_found now t ui.1 ui.2 hwf hu r hr hrt hri hst hsi htid hi
      (fun r' hr' => hfresh ui (List.mem_cons_self ui rest) r' hr')
    rw [List.foldl_cons, hstep]
    rw [hstep] at hpres
    set f0 : PersonRow → PersonRow := fun r' =>
      if r'.map_id = r.map_id then
        { r with imdb_id := some ui.2, last_updated_at := some now } else r' with hf0
    have hresteq := ih { t with rows := t.rows.map f0 } hpres.1 hpres.2 hndf.2 hndi.2
      (fun uj hj => hclean uj (List.mem_cons_of_mem ui hj))
      ?hexists2 ?hfresh2
    case hexists2 =>
      intro uj hj
      obtain ⟨rj, hrj, hrjt, hrji⟩ := hexists uj (List.mem_cons_of_mem ui hj)
      refine ⟨f0 rj, List.mem_map_of_mem f0 hrj, ?_⟩
      have hne : rj.map_id ≠ r.map_id := by
        intro heq
        have := row_eq_of_map_id hwf.nodup hrj hr heq
        subst this
        rw [hrt] at hrjt
        exact hndf.1 (Option.some.inj hrjt ▸ List.mem_map_of_mem Prod.fst hj)
      rw [hf0]
      dsimp only
      rw [if_neg hne]
      exact ⟨hrjt, hrji⟩
    case hfresh2 =>
      intro uj hj r' hr'
      obtain ⟨x, hx, hxeq⟩ := List.mem_map.mp hr'
      subst hxeq
      rw [hf0]
      dsimp only
      split
      · intro hc
        simp only [PersonRow.mk.injEq] at hc
        exact hndi.1 ((Option.some.inj hc) ▸ List.mem_map_of_mem Prod.snd hj)
      · exact hfresh uj (List.mem_cons_of_mem ui hj) x hx
    rw [hresteq]
    dsimp only
    rw [List.map_map]
    congr 1
    apply List.map_congr_left
    intro x hx
    dsimp only [Function.comp]
    by_cases hxm : x.map_id = r.map_id
    · have hxr : x = r := row_eq_of_map_id hwf.nodup hx hr hxm
      subst hxr
      rw [hf0]
      dsimp only
      rw [if_pos rfl]
      set y : PersonRow := { x with imdb_id := some ui.2, last_updated_at := some now }
        with hy
      have hytm : y.tmdb_person_id = some ui.1 := by rw [hy]; exact hrt
      have hnotrest : ∀ uj ∈ rest, ¬(y.tmdb_person_id == some uj.1) = true := by
        intro uj hj hc
        simp only [beq_iff_eq] at hc
        rw [hytm] at hc
        exact hndf.1 ((Option.some.inj hc) ▸ List.mem_map_of_mem Prod.fst hj)
      have h1 : enrichApply now rest y = y := by
        unfold enrichApply
        rw [List.find?_eq_none.mpr hnotrest]
      have h2 : enrichApply now (ui :: rest) x = y := by
        unfold enrichApply
        rw [List.find?_cons_of_pos _ (by simp [hrt])]
      rw [h1, h2]
    · rw [hf0]
      dsimp only
      rw [if_neg hxm]
      have hhead : ¬(x.tmdb_person_id == some ui.1) = true := by
        intro hc
        simp only [beq_iff_eq] at hc
        exact hxm (congrArg PersonRow.map_id (hu .tmdb ui.1 htid x hx r hr hc hrt))
      have hskip : List.find? (fun uj => x.tmdb_person_id == some uj.1) (ui :: rest) =
          List.find? (fun uj => x.tmdb_person_id == some uj.1) rest :=
        List.find?_cons_of_neg _ hhead
      unfold enrichApply
      rw [hskip]

theorem contains_iff_mem_str {l : List String} {a : String} :
    l.contains a = true ↔ a ∈ l := by
  simp

theorem mem_enrichUpdates {results : List (String × FetchStatus)} {ui : String × String} :
    ui ∈ enrichUpdates results ↔
      ∃ o, (ui.1, FetchStatus.found o) ∈ results ∧ optTruthy o = true ∧
        o.getD "" = ui.2 := by
  unfold enrichUpdates
  rw [List.mem_filterMap]
  constructor
  · rintro ⟨p, hp, he⟩
    cases hst : p.2 with
    | found o =>
      rw [hst] at he
      dsimp only at he
      by_cases htr : optTruthy o = true
      · rw [if_pos htr] at he
        have hpe := Option.some.inj he
        refine ⟨o, ?_, htr, ?_⟩
        · have h1 : ui.1 = p.1 := by rw [← hpe]
          rw [h1, ← hst]
          exact hp
        · rw [← hpe]
      · rw [if_neg htr] at he
        exact absurd he (by simp)
    | notFound =>
      rw [hst] at he
      exact absurd he (by simp)
    | failed =>
      rw [hst] at he
      exact absurd he (by simp)
  · rintro ⟨o, hmem, htr, hval⟩
    refine ⟨(ui.1, FetchStatus.found o), hmem, ?_⟩
    dsimp only
    rw [if_pos htr, hval]

theorem mem_enrichDeletions {results : List (String × FetchStatus)} {v : String} :
    v ∈ enrichDeletions results ↔ (v, FetchStatus.notFound) ∈ results := by
  unfold enrichDeletions
  rw [List.mem_filterMap]
  constructor
  · rintro ⟨p, hp, he⟩
    cases hst : p.2 with
    | found o =>
      rw [hst] at he
      exact absurd he (by simp)
    | notFound =>
      rw [hst] at he
      dsimp only at he
      have h1 : p.1 = v := Option.some.inj he
      rw [← h1, ← hst]
      exact hp
    | failed =>
      rw [hst] at he
      exact absurd he (by simp)
  · intro hmem
    exact ⟨(v, FetchStatus.notFound), hmem, rfl⟩

theorem enrichUpdates_fst_sublist (results : List (String × FetchStatus)) :
    ((enrichUpdates results).map Prod.fst).Sublist (results.map Prod.fst) := by
  induction results with
  | nil => simp [enrichUpdates]
  | cons p rest ih =>
    unfold enrichUpdates
    rw [List.filterMap_cons]
    unfold enrichUpdates at ih
    cases hst : p.2 with
    | found o =>
      dsimp only
      by_cases htr : optTruthy o = true
      · rw [if_pos htr]
        rw [List.map_cons, List.map_cons]
        exact ih.cons₂ p.1
      · rw [if_neg htr]
        rw [List.map_cons]
        exact ih.cons p.1
    | notFound =>
      dsimp only
      rw [List.map_cons]
      exact ih.cons p.1
    | failed =>
      dsimp only
      rw [List.map_cons]
      exact ih.cons p.1

/-- `last_synced_at` bumping leaves the TMDb id alone. -/
theorem bump_tmdb (now : Nat) (processed : List String) (r : PersonRow) :
    ((if r.tmdb_person_id.isSome ∧ processed.contains (r.tmdb_person_id.getD "") then
        { r with last_synced_at := some now } else r) : PersonRow).tmdb_person_id
      = r.tmdb_person_id := by
  split <;> rfl

/-- A phase-A row whose lookup fails: TMDb id present, IMDb null, never
synced. -/
def er9 : PersonRow := { map_id := 3, primary_name := "P3", tmdb_person_id := some "T3" }

/-- C9, counterexample: a batch whose only lookup failed produces no
updates and no deletions, so the commit block never runs: the table is
returned unchanged and `last_synced_at` is not set to `now` for the
processed row, although the claim says every processed row's
`last_synced_at` is updated. -/
theorem enrich_batch_claim_counterexample :
    enrichBatchCommit 99 ⟨[er9], 4⟩ [er9] [("T3", FetchStatus.failed)] = ⟨[er9], 4⟩ ∧
    ∀ r ∈ (enrichBatchCommit 99 ⟨[er9], 4⟩ [er9] [("T3", FetchStatus.failed)]).rows,
      r.last_synced_at ≠ some 99 := by
  constructor
  · decide
  · decide

/-- C9 (amended): when a batch yields no IMDb update and no deletion,
nothing at all is written (in particular no `last_synced_at` bump);
otherwise, in one commit, rows whose lookup got a 404 are gone, a row
whose lookup found a fresh IMDb id is rewritten with that id and both
timestamps, and a row whose lookup failed is kept with only
`last_synced_at` bumped. -/
theorem enrich_batch_claim_amended (now : Nat) (t : PersonTable)
    (chunk : List PersonRow) (results : List (String × FetchStatus))
    (hwf : TableWF t) (hu : UniqueIds t)
    (hndf : (results.map Prod.fst).Nodup)
    (hndi : ((enrichUpdates results).map Prod.snd).Nodup)
    (hstrip : ∀ p ∈ results, pyStrip p.1 = p.1 ∧ p.1 ≠ "")
    (hfound : ∀ p ∈ results, ∀ o, p.2 = FetchStatus.found o → optTruthy o = true →
      (∃ r ∈ t.rows, r.tmdb_person_id = some p.1 ∧ r.imdb_id = none) ∧
      pyStrip (o.getD "") = o.getD "" ∧
      ∀ r ∈ t.rows, r.imdb_id ≠ some (o.getD ""))
    (hchunk : ∀ p ∈ results, p.1 ∈ chunk.filterMap (fun c => c.tmdb_person_id)) :
    (enrichUpdates results = [] ∧ enrichDeletions results = [] →
      enrichBatchCommit now t chunk results = t) ∧
    (¬(enrichUpdates results = [] ∧ enrichDeletions results = []) →
      (∀ p ∈ results, p.2 = FetchStatus.notFound →
        ∀ r' ∈ (enrichBatchCommit now t chunk results).rows,
          r'.tmdb_person_id ≠ some p.1) ∧
      (∀ p ∈ results, ∀ o, p.2 = FetchStatus.found o → optTruthy o = true →
        ∀ r ∈ t.rows, r.tmdb_person_id = some p.1 →
          { r with imdb_id := some (o.getD ""), last_updated_at := some now,
                   last_synced_at := some now }
            ∈ (enrichBatchCommit now t chunk results).rows) ∧
      (∀ p ∈ results, p.2 = FetchStatus.failed →
        ∀ r ∈ t.rows, r.tmdb_person_id = some p.1 →
          { r with last_synced_at := some now }
            ∈ (enrichBatchCommit now t chunk results).rows)) := by
  have hkeyinj : ∀ p ∈ results, ∀ q ∈ results, p.1 = q.1 → p = q := by
    intro p hp q hq h
    exact List.inj_on_of_nodup_map hndf hp hq h
  have hcleanu : ∀ ui ∈ enrichUpdates results,
      pyStrip ui.1 = ui.1 ∧ ui.1 ≠ "" ∧ pyStrip ui.2 = ui.2 ∧ ui.2 ≠ "" := by
    intro ui hui
    obtain ⟨o, hmem, htr, hval⟩ := mem_enrichUpdates.mp hui
    obtain ⟨h1, h2⟩ := hstrip _ hmem
    have hsv := (hfound _ hmem o rfl htr).2.1
    have hone : o.getD "" ≠ "" := by
      cases o with
      | none => simp [optTruthy] at htr
      | some s => simpa [optTruthy] using htr
    exact ⟨h1, h2, hval ▸ hsv, hval ▸ hone⟩
  have hexu : ∀ ui ∈ enrichUpdates results,
      ∃ r ∈ t.rows, r.tmdb_person_id = some ui.1 ∧ r.imdb_id = none := by
    intro ui hui
    obtain ⟨o, hmem, htr, _⟩ := mem_enrichUpdates.mp hui
    exact (hfound _ hmem o rfl htr).1
  have hfru : ∀ ui ∈ enrichUpdates results,
      ∀ r ∈ t.rows, r.imdb_id ≠ some ui.2 := by
    intro ui hui r hr
    obtain ⟨o, hmem, htr, hval⟩ := mem_enrichUpdates.mp hui
    exact hval ▸ (hfound _ hmem o rfl htr).2.2 r hr
  have hndfu : ((enrichUpdates results).map Prod.fst).Nodup :=
    (enrichUpdates_fst_sublist results).nodup hndf
  have hfold := enrichFold_eq now (enrichUpdates results) t hwf hu hndfu hndi
    hcleanu hexu hfru
  have hdelnot : ∀ p ∈ results, p.2 ≠ FetchStatus.notFound →
      (enrichDeletions results).contains p.1 = false := by
    intro p hp hpne
    cases hc : (enrichDeletions results).contains p.1
    · rfl
    · exfalso
      have hmem := mem_enrichDeletions.mp (contains_iff_mem_str.mp hc)
      have := hkeyinj _ hmem _ hp rfl
      rw [← this] at hpne
      exact hpne rfl
  constructor
  · intro h
    simp only [enrichBatchCommit]
    rw [if_pos h]
  · intro hne
    have hrows : (enrichBatchCommit now t chunk results).rows =
        List.map
          (fun r =>
            if r.tmdb_person_id.isSome ∧
                (chunk.filterMap (fun c => c.tmdb_person_id)).contains
                  (r.tmdb_person_id.getD "") then
              { r with last_synced_at := some now }
            else r)
          (List.filter
            (fun r => ¬ (r.tmdb_person_id.isSome ∧
              (enrichDeletions results).contains (r.tmdb_person_id.getD "")))
            (List.map (enrichApply now (enrichUpdates results)) t.rows)) := by
      simp only [enrichBatchCommit]
      rw [if_neg hne, hfold]
    refine ⟨?_, ?_, ?_⟩
    · intro p hp hpnf r' hr' hc
      rw [hrows] at hr'
      obtain ⟨x, hx, hxeq⟩ := List.mem_map.mp hr'
      have hxt : r'.tmdb_person_id = x.tmdb_person_id := by
        rw [← hxeq]
        exact bump_tmdb now _ x
      obtain ⟨hxmem, hxpred⟩ := List.mem_filter.mp hx
      have hxdel : ¬ (x.tmdb_person_id.isSome ∧
          (enrichDeletions results).contains (x.tmdb_person_id.getD "")) :=
        of_decide_eq_true hxpred
      apply hxdel
      rw [hxt] at hc
      rw [hc]
      refine ⟨rfl, ?_⟩
      exact contains_iff_mem_str.mpr
        (mem_enrichDeletions.mpr (by rw [← hpnf]; exact hp))
    · intro p hp o hpo htr r hr hrt
      have hui : (p.1, o.getD "") ∈ enrichUpdates results :=
        mem_enrichUpdates.mpr ⟨o, (by rw [← hpo]; exact hp), htr, rfl⟩
      have happ : enrichApply now (enrichUpdates results) r =
          { r with imdb_id := some (o.getD ""), last_updated_at := some now } := by
        unfold enrichApply
        cases hq : (enrichUpdates results).find?
            (fun ui => r.tmdb_person_id == some ui.1) with
        | none =>
          exfalso
          have := List.find?_eq_none.mp hq _ hui
          simp [hrt] at this
        | some v =>
          have hv1 : v.1 = p.1 := by
            have := List.find?_some hq
            simp only [beq_iff_eq, hrt] at this
            exact (Option.some.inj this).symm
          have hveq : v = (p.1, o.getD "") :=
            List.inj_on_of_nodup_map hndfu (List.mem_of_find?_eq_some hq) hui hv1
          rw [hveq]
      have hy : enrichApply now (enrichUpdates results) r ∈
          t.rows.map (enrichApply now (enrichUpdates results)) :=
        List.mem_map_of_mem _ hr
      rw [happ] at hy
      have hyt : ({ r with imdb_id := some (o.getD ""), last_updated_at := some now }
          : PersonRow).tmdb_person_id = some p.1 := hrt
      have hkeep : ¬ (r.tmdb_person_id.isSome ∧
          (enrichDeletions results).contains (r.tmdb_person_id.getD "")) := by
        rw [hrt]
        intro hcc
        have hdn := hdelnot p hp (by rw [hpo]; simp)
        rw [show (some p.1).getD "" = p.1 from rfl] at hcc
        rw [hdn] at hcc
        exact absurd hcc.2 (by simp)
      have hyf : ({ r with imdb_id := some (o.getD ""), last_updated_at := some now }
          : PersonRow) ∈ List.filter
            (fun r => ¬ (r.tmdb_person_id.isSome ∧
              (enrichDeletions results).contains (r.tmdb_person_id.getD "")))
            (List.map (enrichApply now (enrichUpdates results)) t.rows) :=
        List.mem_filter.mpr ⟨hy, decide_eq_true hkeep⟩
      have hcnd : ({ r with imdb_id := some (o.getD ""), last_updated_at := some now }
          : PersonRow).tmdb_person_id.isSome = true ∧
          (chunk.filterMap (fun c => c.tmdb_person_id)).contains
            (({ r with imdb_id := some (o.getD ""), last_updated_at := some now }
              : PersonRow).tmdb_person_id.getD "") = true := by
        rw [hyt]
        exact ⟨rfl, contains_iff_mem_str.mpr (hchunk p hp)⟩
      rw [hrows]
      refine List.mem_map.mpr ⟨_, hyf, ?_⟩
      dsimp only
      rw [if_pos hcnd]
    · intro p hp hpf r hr hrt
      have hnotu : ∀ ui ∈ enrichUpdates results,
          ¬(r.tmdb_person_id == some ui.1) = true := by
        intro ui hui hc
        simp only [beq_iff_eq, hrt] at hc
        obtain ⟨o, hmem, htr, _⟩ := mem_enrichUpdates.mp hui
        have := hkeyinj _ hmem _ hp (Option.some.inj hc).symm
        rw [show ((ui.1, FetchStatus.found o) : String × FetchStatus).1 = ui.1 from rfl]
          at this
        have h2 := congrArg Prod.snd this
        rw [hpf] at h2
        exact absurd h2 (by simp)
      have happ : enrichApply now (enrichUpdates results) r = r := by
        unfold enrichApply
        rw [List.find?_eq_none.mpr hnotu]
      have hy : enrichApply now (enrichUpdates results) r ∈
          t.rows.map (enrichApply now (enrichUpdates results)) :=
        List.mem_map_of_mem _ hr
      rw [happ] at hy
      have hkeep : ¬ (r.tmdb_person_id.isSome ∧
          (enrichDeletions results).contains (r.tmdb_person_id.getD "")) := by
        rw [hrt]
        intro hcc
        have := hdelnot p hp (by rw [hpf]; simp)
        rw [show (some p.1).getD "" = p.1 from rfl] at hcc
        rw [this] at hcc
        exact absurd hcc.2 (by simp)
      have hyf : r ∈ List.filter
            (fun r => ¬ (r.tmdb_person_id.isSome ∧
              (enrichDeletions results).contains (r.tmdb_person_id.getD "")))
            (List.map (enrichApply now (enrichUpdates results)) t.rows) :=
        List.mem_filter.mpr ⟨hy, decide_eq_true hkeep⟩
      have hcnd : r.tmdb_person_id.isSome = true ∧
          (chunk.filterMap (fun c => c.tmdb_person_id)).contains
            (r.tmdb_person_id.getD "") = true := by
        rw [hrt]
        exact ⟨rfl, contains_iff_mem_str.mpr (hchunk p hp)⟩
      rw [hrows]
      refine List.mem_map.mpr ⟨_, hyf, ?_⟩
      dsimp only
      rw [if_pos hcnd]

/-- Concrete phase-A rows for the C9 witness. -/
def er1W : PersonRow := { map_id := 1, primary_name := "P1", tmdb_person_id := some "T1" }

def er2W : PersonRow := { map_id := 2, primary_name := "P2", tmdb_person_id := some "T2" }

def er3W : PersonRow := { map_id := 3, primary_name := "P3", tmdb_person_id := some "T3" }

def tW9 : PersonTable := ⟨[er1W, er2W, er3W], 4⟩

def chunkW9 : List PersonRow := [er1W, er2W, er3W]

def resultsW9 : List (String × FetchStatus) :=
  [("T1", FetchStatus.found (some "I1")), ("T2", FetchStatus.notFound),
   ("T3", FetchStatus.failed)]

theorem enrich_batch_claim_amended_witness :
    ({ er1W with imdb_id := some "I1", last_updated_at := some 7, last_synced_at := some 7 }
       ∈ (enrichBatchCommit 7 tW9 chunkW9 resultsW9).rows) ∧
    (∀ r' ∈ (enrichBatchCommit 7 tW9 chunkW9 resultsW9).rows,
       r'.tmdb_person_id ≠ some "T2") ∧
    ({ er3W with last_synced_at := some 7 }
       ∈ (enrichBatchCommit 7 tW9 chunkW9 resultsW9).rows) := by
  have hwf : TableWF tW9 := ⟨by decide, by decide, by decide⟩
  have hu : UniqueIds tW9 := by
    intro f v hv r1 h1 r2 h2 hv1 hv2
    simp only [tW9, er1W, er2W, er3W, List.mem_cons, List.not_mem_nil, or_false] at h1 h2
    rcases h1 with rfl | rfl | rfl <;> rcases h2 with rfl | rfl | rfl <;>
      cases f <;> simp_all [PersonRow.getId] <;>
      exact absurd (hv1.trans hv2.symm) (by decide)
  have hfound : ∀ p ∈ resultsW9, ∀ o, p.2 = FetchStatus.found o → optTruthy o = true →
      (∃ r ∈ tW9.rows, r.tmdb_person_id = some p.1 ∧ r.imdb_id = none) ∧
      pyStrip (o.getD "") = o.getD "" ∧
      ∀ r ∈ tW9.rows, r.imdb_id ≠ some (o.getD "") := by
    intro p hp o hpo htr
    simp only [resultsW9, List.mem_cons, List.not_mem_nil, or_false] at hp
    rcases hp with rfl | rfl | rfl
    · injection hpo with ho
      subst ho
      exact ⟨⟨er1W, by decide, by decide, by decide⟩, by decide, by decide⟩
    · exact absurd hpo (by simp)
    · exact absurd hpo (by simp)
  have H := enrich_batch_claim_amended 7 tW9 chunkW9 resultsW9 hwf hu (by decide)
    (by decide) (by decide) hfound (by decide)
  have H2 := H.2 (by decide)
  refine ⟨?_, ?_, ?_⟩
  · exact H2.2.1 ("T1", FetchStatus.found (some "I1")) (by decide) (some "I1") rfl
      (by decide) er1W (by decide) (by decide)
  · intro r' hr' hc
    exact H2.1 ("T2", FetchStatus.notFound) (by decide) rfl r' hr' hc
  · exact H2.2.2 ("T3", FetchStatus.failed) (by decide) rfl er3W (by decide) (by decide)

/-! ### Claim C10: atomicity of the override JSON writes -/

theorem tmp_ne_dest (dest : String) (r : Nat) :
    dest ++ "." ++ toString r ++ ".tmp" ≠ dest := by
  intro h
  have hl := congrArg String.length h
  have h1 : ("." : String).length = 1 := rfl
  have h2 : (".tmp" : String).length = 4 := rfl
  simp only [String.length_append, h1, h2] at hl
  omega

theorem pjoin_right_inj {a b c : String} (h : pjoin a b = pjoin a c) : b = c := by
  unfold pjoin at h
  have hd := congrArg String.data h
  simp only [String.data_append] at hd
  exact String.ext (List.append_cancel_left hd)

theorem childFold_acc_sub (dir : String) (l : List (String × Option String)) :
    ∀ acc : List FileOp, acc ⊆ l.foldl
      (fun ops fc =>
        if strStarts fc.1 "season-" ∧ strEnds fc.1 ".json" then
          match fc.2 with
          | some c => ops ++ [FileOp.write (pjoin dir fc.1) c]
          | none => ops
        else ops) acc := by
  induction l with
  | nil => intro acc; exact fun _ h => h
  | cons fc rest ih =>
    intro acc x hx
    rw [List.foldl_cons]
    apply ih
    by_cases hP : strStarts fc.1 "season-" ∧ strEnds fc.1 ".json"
    · rw [if_pos hP]
      cases hco : fc.2 with
      | some c => exact List.mem_append_left _ hx
      | none => exact hx
    · rw [if_neg hP]
      exact hx

theorem childFold_mem (dir : String) (l : List (String × Option String)) :
    ∀ acc : List FileOp, ∀ x ∈ l.foldl
      (fun ops fc =>
        if strStarts fc.1 "season-" ∧ strEnds fc.1 ".json" then
          match fc.2 with
          | some c => ops ++ [FileOp.write (pjoin dir fc.1) c]
          | none => ops
        else ops) acc,
      x ∈ acc ∨ ∃ fc ∈ l, ∃ c, strStarts fc.1 "season-" = true ∧
        fc.2 = some c ∧ x = FileOp.write (pjoin dir fc.1) c := by
  induction l with
  | nil => intro acc x hx; exact Or.inl hx
  | cons fc rest ih =>
    intro acc x hx
    rw [List.foldl_cons] at hx
    rcases ih _ x hx with hacc | ⟨fc', h1, c, h2, h3, h4⟩
    · by_cases hP : strStarts fc.1 "season-" ∧ strEnds fc.1 ".json"
      · rw [if_pos hP] at hacc
        cases hco : fc.2 with
        | some c =>
          rw [hco] at hacc
          rcases List.mem_append.mp hacc with h | h
          · exact Or.inl h
          · exact Or.inr ⟨fc, List.mem_cons_self fc rest, c, hP.1,
              hco, List.mem_singleton.mp h⟩
        | none =>
          rw [hco] at hacc
          exact Or.inl hacc
      · rw [if_neg hP] at hacc
        exact Or.inl hacc
    · exact Or.inr ⟨fc', List.mem_cons_of_mem fc h1, c, h2, h3, h4⟩

theorem childFold_mem_of (dir : String) (l : List (String × Option String)) :
    ∀ acc : List FileOp, ∀ fc ∈ l, ∀ c, fc.2 = some c →
      (strStarts fc.1 "season-" ∧ strEnds fc.1 ".json") →
      FileOp.write (pjoin dir fc.1) c ∈ l.foldl
        (fun ops fc =>
          if strStarts fc.1 "season-" ∧ strEnds fc.1 ".json" then
            match fc.2 with
            | some c => ops ++ [FileOp.write (pjoin dir fc.1) c]
            | none => ops
          else ops) acc := by
  induction l with
  | nil => intro acc fc hfc; simp at hfc
  | cons fc0 rest ih =>
    intro acc fc hfc c hco hP
    rw [List.foldl_cons]
    rcases List.mem_cons.mp hfc with rfl | hmem
    · apply childFold_acc_sub
      rw [if_pos hP, hco]
      exact List.mem_append_right _ (List.mem_singleton.mpr rfl)
    · exact ih _ fc hmem c hco hP

theorem startsWith_season_ne_base (fn : String)
    (h : strStarts fn "season-" = true) :
    fn ≠ "all.json" ∧ fn ≠ "series.json" := by
  constructor
  · intro he
    rw [he] at h
    exact absurd h (by decide)
  · intro he
    rw [he] at h
    exact absurd h (by decide)

/-- C10, counterexample: with episode processing on, the season JSON
mirror is produced by a direct write with no temporary file and no
rename, so the season destination is not atomically written. -/
theorem override_atomic_claim_counterexample :
    "dir/season-1.json" ∈
      planDestinations false "dir" true [("season-1.json", some "c1")] ∧
    ¬ atomicallyWritten
        (overrideWritePlan false "dir" "root" 1234 true [("season-1.json", some "c1")])
        "dir/season-1.json" := by
  constructor
  · decide
  · intro h
    exact absurd
      (show FileOp.write "dir/season-1.json" "c1" ∈
        overrideWritePlan false "dir" "root" 1234 true [("season-1.json", some "c1")]
        by decide)
      (h.1 "c1")

/-- C10 (amended): the movie/series root JSON is written atomically (to a
`<path>.<rand>.tmp` file, then renamed over the destination, which no
operation writes directly), but the season JSON mirrors written when
episode processing is on are plain direct writes: each readable
`season-*.json` is written to its destination in one write and no rename
ever targets it. -/
theorem override_atomic_claim_amended (isMovie : Bool) (dir rootContent : String)
    (rand : Nat) (processEpisodes : Bool)
    (seasonFiles : List (String × Option String)) :
    atomicallyWritten
      (overrideWritePlan isMovie dir rootContent rand processEpisodes seasonFiles)
      (pjoin dir (if isMovie then "all.json" else "series.json")) ∧
    (∀ fn c, (fn, some c) ∈ seasonFiles → isMovie = false → processEpisodes = true →
      strStarts fn "season-" = true → strEnds fn ".json" = true →
      FileOp.write (pjoin dir fn) c ∈
        overrideWritePlan isMovie dir rootContent rand processEpisodes seasonFiles ∧
      ∀ src, FileOp.rename src (pjoin dir fn) ∉
        overrideWritePlan isMovie dir rootContent rand processEpisodes seasonFiles) := by
  constructor
  · constructor
    · intro c hc
      simp only [overrideWritePlan] at hc
      rcases List.mem_append.mp hc with hroot | hchild
      · rcases List.mem_cons.mp hroot with he | he
        · have := (FileOp.write.injEq _ _ _ _).mp he
          exact tmp_ne_dest _ rand this.1.symm
        · rcases List.mem_cons.mp he with he2 | he2
          · exact FileOp.noConfusion he2
          · simp at he2
      · by_cases hcond : ¬isMovie = true ∧ processEpisodes = true
        · rw [if_pos hcond] at hchild
          rcases childFold_mem dir seasonFiles [] _ hchild with h | ⟨fc, _, c', hsw, _, heq⟩
          · simp at h
          · have hinj := (FileOp.write.injEq _ _ _ _).mp heq
            have hfn := pjoin_right_inj hinj.1
            have hne := startsWith_season_ne_base fc.1 hsw
            cases isMovie
            · rw [if_neg (by simp)] at hfn
              exact hne.2 hfn.symm
            · rw [if_pos rfl] at hfn
              exact hne.1 hfn.symm
        · rw [if_neg hcond] at hchild
          simp at hchild
    · refine ⟨rand, rootContent, ?_, ?_⟩
      · simp only [overrideWritePlan]
        exact List.mem_append_left _ (List.mem_cons_self _ _)
      · simp only [overrideWritePlan]
        exact List.mem_append_left _
          (List.mem_cons_of_mem _ (List.mem_cons_self _ _))
  · intro fn c hmem hmv hpe hsw hew
    subst hmv
    subst hpe
    constructor
    · simp only [overrideWritePlan]
      apply List.mem_append_right
      rw [if_pos (by constructor <;> simp)]
      exact childFold_mem_of dir seasonFiles [] (fn, some c) hmem c rfl ⟨hsw, hew⟩
    · intro src hc
      simp only [overrideWritePlan] at hc
      rcases List.mem_append.mp hc with hroot | hchild
      · rcases List.mem_cons.mp hroot with he | he
        · exact FileOp.noConfusion he
        · rcases List.mem_cons.mp he with he2 | he2
          · have := (FileOp.rename.injEq _ _ _ _).mp he2
            have hfn := pjoin_right_inj this.2
            exact (startsWith_season_ne_base fn hsw).2 hfn
          · simp at he2
      · rw [if_pos (by constructor <;> simp)] at hchild
        rcases childFold_mem dir seasonFiles [] _ hchild with h | ⟨fc, _, c', _, _, heq⟩
        · simp at h
        · exact FileOp.noConfusion heq

theorem override_atomic_claim_amended_witness :
    atomicallyWritten
      (overrideWritePlan false "dir" "rc" 5 true [("season-1.json", some "c1")])
      (pjoin "dir" (if (false : Bool) then "all.json" else "series.json")) ∧
    FileOp.write (pjoin "dir" "season-1.json") "c1" ∈
      overrideWritePlan false "dir" "rc" 5 true [("season-1.json", some "c1")] :=
  ⟨(override_atomic_claim_amended false "dir" "rc" 5 true
      [("season-1.json", some "c1")]).1,
   ((override_atomic_claim_amended false "dir" "rc" 5 true
      [("season-1.json", some "c1")]).2 "season-1.json" "c1" (by decide) rfl rfl
      (by decide) (by decide)).1⟩

end EmbyActor
